import Mathlib

/-!
# Verification of the Archer `InstrumentParallel` pass

A shallow embedding of `src/lib/Transforms/Instrumentation/InstrumentParallel.cpp`
(the Archer OpenMP race-detector instrumentation pass) together with proofs of the
specified properties.

The embedding models the slice of LLVM IR that the pass inspects and mutates:
functions as ordered lists of named basic blocks holding instructions, modules as
lists of globals and functions, and an executable big-step interpreter (with fuel
for loops and an oracle for calls) used to state the runtime-behaviour claims.
Machine integers are modelled as `Int` wrapped to 32 bits where arithmetic occurs.
-/

namespace Archer

/-- Two's-complement wrap of an integer to the signed 32-bit range, used by the
interpreter for `add`/`sub` results (LLVM i32 arithmetic wraps). -/
def wrap32 (n : Int) : Int := (n + 2 ^ 31) % 2 ^ 32 - 2 ^ 31

/-- `StringRef::endswith`, computed on the character list. -/
def strEndsWith (s p : String) : Bool := p.toList.isSuffixOf s.toList

/-- `StringRef::startswith`, computed on the character list. -/
def strStartsWith (s p : String) : Bool := p.toList.isPrefixOf s.toList

/-- An instruction operand: an integer constant or a reference to a named SSA
value (function argument or earlier instruction result). -/
inductive Operand where
  | const (n : Int)
  | var (x : String)
  deriving DecidableEq, Repr

/-- The instruction forms the pass creates or inspects, plus the general forms
(arithmetic, memory, calls, branches, returns) that original function bodies are
built from. -/
inductive Opcode where
  | load (g : String)
  | store (v : Operand) (g : String)
  | add (a b : Operand)
  | sub (a b : Operand)
  | icmpEq (a b : Operand)
  | call (fn : String) (args : List Operand)
  | br (target : String)
  | condbr (c : Operand) (thenTarget elseTarget : String)
  | ret (v : Option Operand)
  deriving DecidableEq, Repr

/-- An LLVM instruction: result name (empty when unnamed), opcode, attached
metadata (kind/description pairs, cf. `Instruction::setMetadata`), and an
optional debug location. -/
structure Instr where
  name : String
  op : Opcode
  md : List (String × String) := []
  dbg : Option Nat := none
  deriving DecidableEq, Repr

/-- A named basic block: an ordered list of instructions. -/
structure BasicBlock where
  name : String
  instrs : List Instr
  deriving DecidableEq, Repr

/-- An LLVM function: name, ordered parameter list, return-type shape (void or
a value), the `SanitizeThread` attribute bit, and the ordered block list (the
first block is the entry block). -/
structure Function where
  name : String
  params : List String
  retVoid : Bool
  sanitizeThread : Bool
  blocks : List BasicBlock
  deriving DecidableEq, Repr

/-- Global-variable linkage, restricted to the two kinds the pass creates. -/
inductive Linkage where
  | common
  | external
  deriving DecidableEq, Repr

/-- A module-level global variable, with the fields the pass sets when creating
`__swordomp_status__` (cf. the `GlobalVariable` constructor calls). -/
structure GlobalVariable where
  name : String
  isConstant : Bool
  linkage : Linkage
  init : Option Int
  generalDynamicTLS : Bool
  isExternallyInitialized : Bool
  deriving DecidableEq, Repr

/-- A module: its globals and its functions. -/
structure Module where
  globals : List GlobalVariable
  functions : List Function
  deriving DecidableEq, Repr

/-- `Module::getNamedGlobal`: look a global up by name. -/
def Module.getNamedGlobal (M : Module) (n : String) : Option GlobalVariable :=
  M.globals.find? (fun g => g.name = n)

/-- Whether an opcode is a block terminator (`br`, conditional `br`, `ret`). -/
def Opcode.isTerminator : Opcode → Bool
  | .br _ => true
  | .condbr _ _ _ => true
  | .ret _ => true
  | _ => false

/-- `BasicBlock::getTerminator`: the final instruction when it is a terminator,
otherwise none. -/
def BasicBlock.getTerminator (bb : BasicBlock) : Option Instr :=
  match bb.instrs.getLast? with
  | some i => if i.op.isTerminator then some i else none
  | none => none

/-- `InstrumentParallel::setMetadata`: attach an `MDString` node of the given
description under the given metadata kind (replacing that kind if present). -/
def setMetadata (i : Instr) (kind description : String) : Instr :=
  { i with md := (i.md.filter (fun p => p.1 ≠ kind)) ++ [(kind, description)] }

/-- The fixed name of the thread-local status flag. -/
def ompStatusName : String := "__swordomp_status__"

/-- The description string attached to every tagged inserted instruction. -/
def swordDescription : String := "SwordRT Instrumentation"

/-- The flag global as created when running on `main`: a zero-initialized,
common-linkage, general-dynamic thread-local definition. -/
def mainFlagGlobal : GlobalVariable :=
  { name := ompStatusName, isConstant := false, linkage := .common,
    init := some 0, generalDynamicTLS := true, isExternallyInitialized := false }

/-- The flag global as created from any other function: an uninitialized
external-linkage thread-local reference, marked externally initialized. -/
def externFlagGlobal : GlobalVariable :=
  { name := ompStatusName, isConstant := false, linkage := .external,
    init := none, generalDynamicTLS := true, isExternallyInitialized := true }

/-- The increment load inserted at the entry of a `.omp` function.  The source
tags it twice: once with kind "swordomp.ompstatus" (line 149) and once with
kind "swordrt.ompstatus" (line 154 — a call that names `loadInc` although the
`inc` instruction had just been created). -/
def loadIncInstr : Instr :=
  setMetadata
    (setMetadata { name := "loadIncOmpStatus", op := .load ompStatusName }
      "swordomp.ompstatus" swordDescription)
    "swordrt.ompstatus" swordDescription

/-- The add-one instruction of the increment sequence.  No `setMetadata` call
in the source targets it, so it carries no metadata. -/
def incInstr : Instr :=
  { name := "incOmpStatus", op := .add (.var "loadIncOmpStatus") (.const 1) }

/-- The store of the increment sequence (tagged). -/
def storeIncInstr : Instr :=
  setMetadata { name := "", op := .store (.var "incOmpStatus") ompStatusName }
    "swordrt.ompstatus" swordDescription

/-- The decrement load inserted before the final terminator of a `.omp`
function (tagged). -/
def loadDecInstr : Instr :=
  setMetadata { name := "loadDecOmpStatus", op := .load ompStatusName }
    "swordrt.ompstatus" swordDescription

/-- The subtract-one instruction of the decrement sequence.  No `setMetadata`
call in the source targets it, so it carries no metadata. -/
def decInstr : Instr :=
  { name := "decOmpStatus", op := .sub (.var "loadDecOmpStatus") (.const 1) }

/-- The store of the decrement sequence (tagged). -/
def storeDecInstr : Instr :=
  setMetadata { name := "", op := .store (.var "decOmpStatus") ompStatusName }
    "swordrt.ompstatus" swordDescription

/-- The three-instruction increment sequence inserted before the first
instruction of a `.omp` function's entry block. -/
def incSeq : List Instr := [loadIncInstr, incInstr, storeIncInstr]

/-- The three-instruction decrement sequence inserted immediately before the
terminator of a `.omp` function's last block. -/
def decSeq : List Instr := [loadDecInstr, decInstr, storeDecInstr]

/-- Replace the function of the given name in a module (in-place mutation of
the function the pass runs on). -/
def replaceFunction (M : Module) (n : String) (F : Function) : Module :=
  { M with functions := M.functions.map (fun g => if g.name = n then F else g) }

/-- The entry block of a `.omp` function after the increment sequence is
inserted in front of its first instruction. -/
def ompEntry (entry : BasicBlock) : BasicBlock :=
  { entry with instrs := incSeq ++ entry.instrs }

/-- A `.omp` function's last block after the decrement sequence is inserted
immediately before its terminator `t` (the block's last instruction). -/
def ompAddDec (bb : BasicBlock) (t : Instr) : BasicBlock :=
  { bb with instrs := bb.instrs.dropLast ++ decSeq ++ [t] }

/-- The diagnostic for a `.omp` function whose last block has no terminator. -/
def brokenMsg : String := "Broken function found, compilation aborted!"

/-- The diagnostic at source line 203 (unreachable, see `runOnFunction`). -/
def noDebugMsg : String := "No instructions with debug information!"

/-- Result of one pass invocation: a mutated module, a `report_fatal_error`
with its message, or undefined behaviour (dereference of a null pointer or
`front()` of an empty list). -/
inductive PassResult where
  | ok (M : Module)
  | fatalError (msg : String)
  | crash
  deriving DecidableEq, Repr

/-- The `.omp` branch of `runOnFunction` (source lines 144-174): insert the
increment sequence before the entry block's first instruction, then insert the
decrement sequence before the last block's terminator, aborting fatally when
the last block has none. -/
def instrumentOmp (M : Module) (F : Function) : PassResult :=
  match F.blocks with
  | [] => .crash
  | entry :: rest =>
    if entry.instrs.isEmpty then .crash
    else
      match rest.getLast? with
      | none =>
        let entry2 := ompEntry entry
        match entry2.getTerminator with
        | none => .fatalError brokenMsg
        | some t =>
          .ok (replaceFunction M F.name { F with blocks := [ompAddDec entry2 t] })
      | some lastBB =>
        match lastBB.getTerminator with
        | none => .fatalError brokenMsg
        | some t =>
          .ok (replaceFunction M F.name
            { F with blocks := ompEntry entry :: rest.dropLast ++ [ompAddDec lastBB t] })

/-- The fresh SSA name bound by the dispatcher's flag load. -/
def loadOmpName : String := "loadOmpStatus"

/-- The fresh SSA name bound by the dispatcher's comparison. -/
def condName : String := "__swordomp__cond"

/-- The name of the block holding the original entry instructions after the
split. -/
def entrySplitName : String := "__swordomp__entry"

/-- The name of the dispatch block that calls the clone. -/
def thenName : String := "__swordomp__if.then"

/-- The clone suffix appended to a sequential candidate's name. -/
def cloneSuffix : String := "__swordomp__"

/-- `CloneFunction` followed by `setName`: a deep copy of the function under
the suffixed name, inserted into the module before the original is mutated. -/
def seqClone (F : Function) : Function := { F with name := F.name ++ cloneSuffix }

/-- The rewritten entry block of a sequential candidate: flag load, equality
comparison against 1, and a conditional branch to the dispatch block (flag = 1)
or to the split-off original body (otherwise). -/
def dispatchEntry (entry : BasicBlock) : BasicBlock :=
  { entry with instrs := [
      { name := loadOmpName, op := .load ompStatusName },
      { name := condName, op := .icmpEq (.var loadOmpName) (.const 1) },
      { name := "", op := .condbr (.var condName) thenName entrySplitName } ] }

/-- The dispatch block: call the clone with the original arguments in order
(the call carries the debug location of the first debug-carrying entry
instruction), then return the call's result (or return void immediately). -/
def dispatchThen (F : Function) (dbgloc : Option Nat) : BasicBlock :=
  if F.retVoid then
    { name := thenName, instrs := [
        { name := "", op := .call (F.name ++ cloneSuffix) (F.params.map Operand.var),
          dbg := dbgloc },
        { name := "", op := .ret none } ] }
  else
    { name := thenName, instrs := [
        { name := F.name ++ cloneSuffix,
          op := .call (F.name ++ cloneSuffix) (F.params.map Operand.var),
          dbg := dbgloc },
        { name := "", op := .ret (some (.var (F.name ++ cloneSuffix))) } ] }

/-- The sequential candidate after rewriting: `SanitizeThread` stripped, entry
block replaced by the flag check, the original entry instructions moved to the
split block placed right after it, the remaining blocks unchanged, and the
dispatch block appended at the end of the function. -/
def mkDispatcher (F : Function) (entry : BasicBlock) (rest : List BasicBlock)
    (dbgloc : Option Nat) : Function :=
  { F with sanitizeThread := false,
           blocks := dispatchEntry entry ::
             { name := entrySplitName, instrs := entry.instrs } ::
             rest ++ [dispatchThen F dbgloc] }

/-- The sequential-candidate branch of `runOnFunction` (source lines 175-224):
clone the function under the suffixed name, collect the original arguments,
strip `SanitizeThread` from the original, find the first entry instruction
with a debug location, split the entry block around the injected flag check,
and build the dispatch block calling the clone.

Source line 202 reads `if(!firstEntryBBI || !firstEntryBBI)`: it tests
`firstEntryBBI` (the address of the entry block's first instruction, non-null
once the block is known non-empty) twice and never tests `firstEntryBBDI`, so
the `report_fatal_error(noDebugMsg)` branch is unreachable; when no entry
instruction carries a debug location the later
`parallelCall->setDebugLoc(firstEntryBBDI->getDebugLoc())` dereferences the
null `firstEntryBBDI`, modelled as `.crash`. -/
def instrumentSequential (M : Module) (F : Function) : PassResult :=
  let new_function := seqClone F
  let F1 : Function := { F with sanitizeThread := false }
  match F1.blocks with
  | [] => .crash
  | entry :: rest =>
    let firstEntryBBDI := entry.instrs.find? (fun i => i.dbg.isSome)
    match entry.instrs with
    | [] => .crash
    | _ :: _ =>
      if (entry.instrs.head?).isNone ∨ (entry.instrs.head?).isNone then
        .fatalError noDebugMsg
      else
        match firstEntryBBDI with
        | none => .crash
        | some di =>
          let F2 := mkDispatcher F entry rest di.dbg
          .ok { M with functions :=
                  M.functions.map (fun g => if g.name = F.name then F2 else g)
                    ++ [new_function] }

/-- Whether a name carries one of the three excluded suffixes (source lines
127-129). -/
def excludedName (n : String) : Bool :=
  strEndsWith n "_dtor" || strEndsWith n "__swordomp__" ||
    strEndsWith n "__clang_call_terminate"

/-- `InstrumentParallel::runOnFunction` (source lines 105-227): on `main`,
get-or-create the flag as a zero-initialized common-linkage definition and
stop; on an excluded-suffix function, do nothing; otherwise get-or-create the
flag as an external declaration and instrument the function as parallel
outlined work (name starting with ".omp") or as a sequential candidate. -/
def runOnFunction (M : Module) (F : Function) : PassResult :=
  let functionName := F.name
  if functionName = "main" then
    match M.getNamedGlobal ompStatusName with
    | some _ => .ok M
    | none => .ok { M with globals := M.globals ++ [mainFlagGlobal] }
  else if excludedName functionName then
    .ok M
  else
    let M1 : Module :=
      match M.getNamedGlobal ompStatusName with
      | some _ => M
      | none => { M with globals := M.globals ++ [externFlagGlobal] }
    if strStartsWith functionName ".omp" then
      instrumentOmp M1 F
    else
      instrumentSequential M1 F

/-- One pass invocation addressed by function name (the pass manager hands the
pass each function of the module in turn). -/
def runOnFunctionName (M : Module) (n : String) : PassResult :=
  match M.functions.find? (fun f => f.name = n) with
  | some F => runOnFunction M F
  | none => .ok M

/-- A sequence of pass invocations over a module, stopping at the first fatal
error or crash. -/
def runSequence : Module → List String → PassResult
  | M, [] => .ok M
  | M, n :: ns =>
    match runOnFunctionName M n with
    | .ok M2 => runSequence M2 ns
    | r => r

/-- The number of globals of a module carrying the status-flag name. -/
def flagCount (M : Module) : Nat :=
  (M.globals.filter (fun g => g.name = ompStatusName)).length

/-- The number of instructions of a function satisfying a predicate. -/
def Function.countInstr (F : Function) (p : Instr → Bool) : Nat :=
  (F.blocks.map (fun b => (b.instrs.filter p).length)).sum

/-! ## An executable big-step interpreter for the embedded IR

Runtime claims quantify over all inputs: an argument list, an initial global
memory, and an oracle giving the semantics of every called function (so a
dispatcher's interaction with its clone can be stated without fixing the
callee's body).  Fuel bounds the number of block transitions. -/

/-- Global memory: a value for every global name. -/
def Mem : Type := String → Int

/-- Local environment: a value for every SSA name. -/
def Env : Type := String → Int

/-- Call oracle: maps a callee name, argument values, and the memory at the
call to `none` (no result: nonterminating or stuck callee) or the callee's
returned value (none for void) and the memory after the call. -/
def CallEnv : Type := String → List Int → Mem → Option (Option Int × Mem)

/-- Evaluate an operand in an environment. -/
def evalOperand (env : Env) : Operand → Int
  | .const n => n
  | .var x => env x

/-- Point update of a name-indexed map. -/
def updateMap (f : String → Int) (x : String) (v : Int) : String → Int :=
  fun y => if y = x then v else f y

/-- The effect of one instruction: fall through, jump, or return. -/
inductive Outcome where
  | next (env : Env) (mem : Mem)
  | jump (target : String) (env : Env) (mem : Mem)
  | retv (v : Option Int) (mem : Mem)

/-- Execute a single instruction.  `none` means the execution is stuck (a
callee gave no result, or a value call returned void). -/
def execInstr (ce : CallEnv) (i : Instr) (env : Env) (mem : Mem) : Option Outcome :=
  match i.op with
  | .load g => some (.next (updateMap env i.name (mem g)) mem)
  | .store v g => some (.next env (updateMap mem g (evalOperand env v)))
  | .add a b =>
      some (.next (updateMap env i.name (wrap32 (evalOperand env a + evalOperand env b))) mem)
  | .sub a b =>
      some (.next (updateMap env i.name (wrap32 (evalOperand env a - evalOperand env b))) mem)
  | .icmpEq a b =>
      some (.next (updateMap env i.name
        (if evalOperand env a = evalOperand env b then 1 else 0)) mem)
  | .call fn as =>
      match ce fn (as.map (evalOperand env)) mem with
      | none => none
      | some (rv, mem2) =>
        if i.name = "" then some (.next env mem2)
        else
          match rv with
          | some v => some (.next (updateMap env i.name v) mem2)
          | none => none
  | .br t => some (.jump t env mem)
  | .condbr c t e => some (.jump (if evalOperand env c ≠ 0 then t else e) env mem)
  | .ret none => some (.retv none mem)
  | .ret (some v) => some (.retv (some (evalOperand env v)) mem)

/-- Execute the instructions of a block in order.  `inl` is a jump out of the
block, `inr` a return; falling off the end (no terminator reached) is stuck. -/
def execInstrs (ce : CallEnv) :
    List Instr → Env → Mem → Option ((String × Env × Mem) ⊕ (Option Int × Mem))
  | [], _, _ => none
  | i :: is, env, mem =>
    match execInstr ce i env mem with
    | none => none
    | some (.next env2 mem2) => execInstrs ce is env2 mem2
    | some (.jump t env2 mem2) => some (.inl (t, env2, mem2))
    | some (.retv v mem2) => some (.inr (v, mem2))

/-- Look a block up by name (branch-target resolution). -/
def findBlock (blocks : List BasicBlock) (t : String) : Option BasicBlock :=
  blocks.find? (fun b => b.name = t)

/-- Execute from a block name, spending one unit of fuel per block entered. -/
def execFrom (ce : CallEnv) (blocks : List BasicBlock) :
    Nat → String → Env → Mem → Option (Option Int × Mem)
  | 0, _, _, _ => none
  | fuel + 1, t, env, mem =>
    match findBlock blocks t with
    | none => none
    | some bb =>
      match execInstrs ce bb.instrs env mem with
      | none => none
      | some (.inl (t2, env2, mem2)) => execFrom ce blocks fuel t2 env2 mem2
      | some (.inr r) => some r

/-- The initial environment binding each parameter to the corresponding
argument (0 for unbound names). -/
def bindParams (params : List String) (args : List Int) : Env :=
  fun x =>
    match (params.zip args).find? (fun p => p.1 = x) with
    | some p => p.2
    | none => 0

/-- Run a function on argument values from an initial memory: execute the
entry block, then follow jumps. -/
def execFunction (ce : CallEnv) (fuel : Nat) (F : Function) (args : List Int)
    (mem : Mem) : Option (Option Int × Mem) :=
  match F.blocks with
  | [] => none
  | entry :: _ =>
    match execInstrs ce entry.instrs (bindParams F.params args) mem with
    | none => none
    | some (.inl (t, env2, mem2)) => execFrom ce F.blocks fuel t env2 mem2
    | some (.inr r) => some r

/-! ### A counting variant of the interpreter

Used to state how many times a given instruction (e.g. the inserted
increment or decrement) executes during one invocation. -/

/-- Execute a block's instructions while counting executed instructions that
satisfy `p`. -/
def execInstrsCnt (ce : CallEnv) (p : Instr → Bool) :
    List Instr → Env → Mem → Nat →
      Option ((String × Env × Mem × Nat) ⊕ (Option Int × Mem × Nat))
  | [], _, _, _ => none
  | i :: is, env, mem, k =>
    let k2 := if p i then k + 1 else k
    match execInstr ce i env mem with
    | none => none
    | some (.next env2 mem2) => execInstrsCnt ce p is env2 mem2 k2
    | some (.jump t env2 mem2) => some (.inl (t, env2, mem2, k2))
    | some (.retv v mem2) => some (.inr (v, mem2, k2))

/-- Counting analogue of `execFrom`. -/
def execFromCnt (ce : CallEnv) (p : Instr → Bool) (blocks : List BasicBlock) :
    Nat → String → Env → Mem → Nat → Option (Option Int × Mem × Nat)
  | 0, _, _, _, _ => none
  | fuel + 1, t, env, mem, k =>
    match findBlock blocks t with
    | none => none
    | some bb =>
      match execInstrsCnt ce p bb.instrs env mem k with
      | none => none
      | some (.inl (t2, env2, mem2, k2)) => execFromCnt ce p blocks fuel t2 env2 mem2 k2
      | some (.inr r) => some r

/-- Counting analogue of `execFunction`. -/
def execFunctionCnt (ce : CallEnv) (p : Instr → Bool) (fuel : Nat) (F : Function)
    (args : List Int) (mem : Mem) : Option (Option Int × Mem × Nat) :=
  match F.blocks with
  | [] => none
  | entry :: _ =>
    match execInstrsCnt ce p entry.instrs (bindParams F.params args) mem 0 with
    | none => none
    | some (.inl (t, env2, mem2, k)) => execFromCnt ce p F.blocks fuel t env2 mem2 k
    | some (.inr r) => some r

/-- The count component of a counting run. -/
def cntOf : Option (Option Int × Mem × Nat) → Option Nat
  | some (_, _, k) => some k
  | none => none

/-! ## Well-formedness side conditions

LLVM guarantees the pass relies on (unique value and block names, branch
targets resolving to non-entry blocks, dominance) are not represented inside
the block syntax, so the runtime theorems assume them explicitly, as decidable
predicates discharged by `decide` on concrete witnesses. -/

/-- Whether an operand reads the SSA name `x`. -/
def Operand.usesVar (o : Operand) (x : String) : Bool :=
  match o with
  | .const _ => false
  | .var y => y = x

/-- Whether an opcode reads the SSA name `x` through any operand. -/
def Opcode.usesVar (o : Opcode) (x : String) : Bool :=
  match o with
  | .load _ => false
  | .store v _ => v.usesVar x
  | .add a b => a.usesVar x || b.usesVar x
  | .sub a b => a.usesVar x || b.usesVar x
  | .icmpEq a b => a.usesVar x || b.usesVar x
  | .call _ as => as.any (fun o2 => o2.usesVar x)
  | .br _ => false
  | .condbr c _ _ => c.usesVar x
  | .ret none => false
  | .ret (some v) => v.usesVar x

/-- The block names an opcode can branch to. -/
def Opcode.targets (o : Opcode) : List String :=
  match o with
  | .br t => [t]
  | .condbr _ t e => [t, e]
  | _ => []

/-- No instruction of the function reads the SSA name `x`. -/
def Function.usesNoVar (F : Function) (x : String) : Bool :=
  F.blocks.all (fun b => b.instrs.all (fun i => !(i.op.usesVar x)))

/-- Every branch target of the function is in the allowed name list. -/
def Function.targetsWithin (F : Function) (allowed : List String) : Bool :=
  F.blocks.all (fun b => b.instrs.all (fun i =>
    i.op.targets.all (fun t => allowed.contains t)))

/-- The function name classifies as a sequential candidate: not the entry
point, no excluded suffix, not parallel-outlined. -/
def seqCandidateName (n : String) : Bool :=
  (n != "main") && !excludedName n && !strStartsWith n ".omp"

/-- Well-formedness of a sequential candidate with entry block `entry` and
remaining blocks `rest`, reflecting the guarantees LLVM provides for real
input functions: the name classifies as a sequential candidate; the entry
block is non-empty; the body never reads the two SSA names the pass
introduces (they are fresh, by SSA dominance); branch targets resolve to
non-entry blocks (the LLVM entry block has no predecessors); the two block
names the pass introduces are fresh; parameters are distinct and distinct
from the introduced names.  All atoms are decidable, so a concrete witness
discharges the predicate by `decide`. -/
def seqOKParts (F : Function) (entry : BasicBlock) (rest : List BasicBlock) : Prop :=
  F.name ≠ "main" ∧ excludedName F.name = false ∧ strStartsWith F.name ".omp" = false ∧
  entry.instrs ≠ [] ∧
  F.usesNoVar loadOmpName = true ∧
  F.usesNoVar condName = true ∧
  F.targetsWithin (rest.map (fun b => b.name)) = true ∧
  entry.name ∉ rest.map (fun b => b.name) ∧
  entrySplitName ∉ rest.map (fun b => b.name) ∧
  thenName ∉ rest.map (fun b => b.name) ∧
  entry.name ≠ entrySplitName ∧ entry.name ≠ thenName ∧
  F.params.Nodup ∧ loadOmpName ∉ F.params ∧ condName ∉ F.params

/-- The well-formedness predicate is decidable. -/
instance seqOKPartsDecidable (F : Function) (entry : BasicBlock)
    (rest : List BasicBlock) : Decidable (seqOKParts F entry rest) := by
  unfold seqOKParts
  infer_instance

/-- The terminator of a function's final basic block, if any. -/
def lastBlockTerminator (F : Function) : Option Instr :=
  match F.blocks.getLast? with
  | some bb => bb.getTerminator
  | none => none

/-- Two environments agree on every name outside `s`. -/
def EnvAgree (s : List String) (env env' : Env) : Prop :=
  ∀ x, x ∉ s → env x = env' x

/-- Relation between single-instruction results of two agreeing runs: equal
control behaviour and memory, environments agreeing off `s`. -/
def OutRel (s : List String) : Option Outcome → Option Outcome → Prop
  | none, none => True
  | some (.next e1 m1), some (.next e2 m2) => EnvAgree s e1 e2 ∧ m1 = m2
  | some (.jump t1 e1 m1), some (.jump t2 e2 m2) => t1 = t2 ∧ EnvAgree s e1 e2 ∧ m1 = m2
  | some (.retv v1 m1), some (.retv v2 m2) => v1 = v2 ∧ m1 = m2
  | _, _ => False

/-- Relation between block-execution results of two agreeing runs. -/
def StepRel (s : List String) :
    Option ((String × Env × Mem) ⊕ (Option Int × Mem)) →
      Option ((String × Env × Mem) ⊕ (Option Int × Mem)) → Prop
  | none, none => True
  | some (.inl (t1, e1, m1)), some (.inl (t2, e2, m2)) =>
      t1 = t2 ∧ EnvAgree s e1 e2 ∧ m1 = m2
  | some (.inr r1), some (.inr r2) => r1 = r2
  | _, _ => False

/-! ## Concrete example inputs for witnesses and counterexamples -/

/-- An unnamed void return. -/
def retVoidInstr : Instr := { name := "", op := .ret none }

/-- A one-function module around the given function. -/
def exModule (F : Function) : Module := { globals := [], functions := [F] }

/-- A minimal parallel-outlined function: one block holding a single return. -/
def ompExF : Function :=
  { name := ".omp_outlined.", params := [], retVoid := true, sanitizeThread := false,
    blocks := [⟨"entry", [retVoidInstr]⟩] }

/-- `ompExF` after one pass run. -/
def ompOnceF : Function :=
  { ompExF with blocks := [⟨"entry", incSeq ++ decSeq ++ [retVoidInstr]⟩] }

/-- `ompOnceF` after a second pass run: the bookkeeping is duplicated. -/
def ompTwiceF : Function :=
  { ompExF with blocks := [⟨"entry", incSeq ++ incSeq ++ decSeq ++ decSeq ++ [retVoidInstr]⟩] }

/-- A destructor-suffixed function (excluded from instrumentation). -/
def dtorExF : Function :=
  { name := "foo_dtor", params := [], retVoid := true, sanitizeThread := false,
    blocks := [⟨"entry", [retVoidInstr]⟩] }

/-- A sequential candidate with no debug-located instruction anywhere in its
entry block. -/
def seqNoDbgF : Function :=
  { name := "foo", params := [], retVoid := true, sanitizeThread := false,
    blocks := [⟨"entry", [retVoidInstr]⟩] }

/-- A parallel-outlined function whose final block lacks a terminator. -/
def ompBrokenF : Function :=
  { name := ".omp_outlined.", params := [], retVoid := true, sanitizeThread := false,
    blocks := [⟨"entry", [{ name := "x", op := .load "g" }]⟩] }

/-- An entry-block instruction carrying a debug location. -/
def seqExInstr : Instr := { name := "r", op := .add (.const 1) (.const 2), dbg := some 7 }

/-- A two-parameter void sequential candidate carrying `SanitizeThread`, with
one debug-located instruction. -/
def seqExF : Function :=
  { name := "foo", params := ["a", "b"], retVoid := true, sanitizeThread := true,
    blocks := [⟨"entry", [seqExInstr, retVoidInstr]⟩] }

/-- A debug-located add instruction binding "r". -/
def seqValInstr : Instr := { name := "r", op := .add (.var "a") (.const 1), dbg := some 3 }

/-- The return of `seqValF`. -/
def seqValRet : Instr := { name := "", op := .ret (some (.var "r")) }

/-- A value-returning sequential candidate: returns its argument plus one. -/
def seqValF : Function :=
  { name := "bar", params := ["a"], retVoid := false, sanitizeThread := true,
    blocks := [⟨"entry", [seqValInstr, seqValRet]⟩] }

/-- The looping final block of the flag-balance counterexample. -/
def loopBlockB : BasicBlock :=
  ⟨"B", [ { name := "x", op := .load "g" },
          { name := "y", op := .add (.var "x") (.const 1) },
          { name := "", op := .store (.var "y") "g" },
          { name := "c", op := .icmpEq (.var "y") (.const 2) },
          { name := "", op := .condbr (.var "c") "C" "B" } ]⟩

/-- A parallel-outlined function whose textually final block is a loop body
that executes twice before exiting through block C. -/
def ompLoopF : Function :=
  { name := ".omp_loop", params := [], retVoid := true, sanitizeThread := false,
    blocks := [⟨"entry", [{ name := "", op := .br "B" }]⟩, ⟨"C", [retVoidInstr]⟩, loopBlockB] }

/-- `ompLoopF` after the pass: increment in the entry block, decrement before
the final block's terminator. -/
def ompLoopT : Function :=
  { ompLoopF with blocks :=
      [ompEntry ⟨"entry", [{ name := "", op := .br "B" }]⟩, ⟨"C", [retVoidInstr]⟩,
       ompAddDec loopBlockB { name := "", op := .condbr (.var "c") "C" "B" }] }

/-- A call oracle with no defined callees. -/
def emptyCE : CallEnv := fun _ _ _ => none

/-- A call oracle returning the given value and leaving memory unchanged. -/
def constCE (v : Option Int) : CallEnv := fun _ _ m => some (v, m)

/-- The all-zero memory. -/
def zeroMem : Mem := fun _ => 0

/-- Memory with the status flag set to 1 and all other globals zero. -/
def oneFlagMem : Mem := fun g => if g = ompStatusName then 1 else 0

/-- Matches the inserted add-one instruction. -/
def isIncInstr (i : Instr) : Bool := i = incInstr

/-- Matches the inserted subtract-one instruction. -/
def isDecInstr (i : Instr) : Bool := i = decInstr

/-! ## Helper lemmas -/

/-- Prepending the increment sequence does not change a non-empty block's
terminator. -/
theorem ompEntry_getTerminator (entry : BasicBlock) (h : entry.instrs ≠ []) :
    (ompEntry entry).getTerminator = entry.getTerminator := by
  unfold ompEntry BasicBlock.getTerminator
  simp only [List.getLast?_append_of_ne_nil _ h]

/-- A block's terminator is a terminator instruction. -/
theorem getTerminator_isTerminator (bb : BasicBlock) (t : Instr)
    (h : bb.getTerminator = some t) : t.op.isTerminator = true := by
  unfold BasicBlock.getTerminator at h
  cases hl : bb.instrs.getLast? with
  | none => rw [hl] at h; exact Option.noConfusion h
  | some i =>
    rw [hl] at h
    dsimp only at h
    by_cases hi : i.op.isTerminator = true
    · rw [if_pos hi] at h
      cases h
      exact hi
    · rw [if_neg hi] at h
      exact Option.noConfusion h

/-- A block's terminator is its last instruction. -/
theorem getTerminator_getLast (bb : BasicBlock) (t : Instr)
    (h : bb.getTerminator = some t) : bb.instrs.getLast? = some t := by
  unfold BasicBlock.getTerminator at h
  cases hl : bb.instrs.getLast? with
  | none => rw [hl] at h; exact Option.noConfusion h
  | some i =>
    rw [hl] at h
    dsimp only at h
    by_cases hi : i.op.isTerminator = true
    · rw [if_pos hi] at h
      cases h
      rfl
    · rw [if_neg hi] at h
      exact Option.noConfusion h

/-- A block with a terminator splits as its front followed by the terminator. -/
theorem getTerminator_decomp (bb : BasicBlock) (t : Instr)
    (h : bb.getTerminator = some t) : bb.instrs = bb.instrs.dropLast ++ [t] :=
  (List.dropLast_append_getLast? t (getTerminator_getLast bb t h)).symm

/-- If no instruction of a list satisfies `p`, none of its front does. -/
theorem filter_dropLast_nil {α : Type} (p : α → Bool) (l : List α)
    (h : l.filter p = []) : l.dropLast.filter p = [] := by
  have hs := (List.dropLast_sublist l).filter p
  rw [h] at hs
  exact List.sublist_nil.mp hs

/-- A zero pattern count means every block filters to nothing. -/
theorem countInstr_block_nil (F : Function) (p : Instr → Bool)
    (h : F.countInstr p = 0) (b : BasicBlock) (hbm : b ∈ F.blocks) :
    b.instrs.filter p = [] := by
  unfold Function.countInstr at h
  have hz := List.sum_eq_zero_iff.mp h ((b.instrs.filter p).length)
    (List.mem_map_of_mem _ hbm)
  exact List.length_eq_zero.mp hz

/-- A non-terminator instruction either gets stuck or falls through. -/
theorem execInstr_not_term (ce : CallEnv) (i : Instr) (env : Env) (mem : Mem)
    (h : i.op.isTerminator = false) :
    execInstr ce i env mem = none ∨ ∃ e m, execInstr ce i env mem = some (.next e m) := by
  cases hop : i.op with
  | load g =>
    exact Or.inr ⟨updateMap env i.name (mem g), mem, by simp [execInstr, hop]⟩
  | store v g =>
    exact Or.inr ⟨env, updateMap mem g (evalOperand env v), by simp [execInstr, hop]⟩
  | add a b =>
    exact Or.inr ⟨updateMap env i.name (wrap32 (evalOperand env a + evalOperand env b)),
      mem, by simp [execInstr, hop]⟩
  | sub a b =>
    exact Or.inr ⟨updateMap env i.name (wrap32 (evalOperand env a - evalOperand env b)),
      mem, by simp [execInstr, hop]⟩
  | icmpEq a b =>
    exact Or.inr ⟨updateMap env i.name
      (if evalOperand env a = evalOperand env b then 1 else 0), mem, by simp [execInstr, hop]⟩
  | call fn as =>
    cases hce : ce fn (as.map (evalOperand env)) mem with
    | none => exact Or.inl (by simp [execInstr, hop, hce])
    | some r =>
      obtain ⟨rv, mem2⟩ := r
      by_cases hn : i.name = ""
      · exact Or.inr ⟨env, mem2, by simp [execInstr, hop, hce, hn]⟩
      · cases rv with
        | some v =>
          exact Or.inr ⟨updateMap env i.name v, mem2, by simp [execInstr, hop, hce, hn]⟩
        | none => exact Or.inl (by simp [execInstr, hop, hce, hn])
  | br tg => rw [hop] at h; exact absurd h (by simp [Opcode.isTerminator])
  | condbr c tg eg => rw [hop] at h; exact absurd h (by simp [Opcode.isTerminator])
  | ret v => rw [hop] at h; exact absurd h (by simp [Opcode.isTerminator])

/-- Running the counting interpreter over straight-line instructions that
never match `p` either gets stuck or reaches the continuation with the same
count. -/
theorem straight_cnt (ce : CallEnv) (p : Instr → Bool) :
    ∀ (is2 rest2 : List Instr) (env : Env) (mem : Mem) (k : Nat),
      (∀ i ∈ is2, i.op.isTerminator = false ∧ p i = false) →
      execInstrsCnt ce p (is2 ++ rest2) env mem k = none ∨
        ∃ e m, execInstrsCnt ce p (is2 ++ rest2) env mem k = execInstrsCnt ce p rest2 e m k := by
  intro is2
  induction is2 with
  | nil => intro rest2 env mem k _; exact Or.inr ⟨env, mem, rfl⟩
  | cons i is ih =>
    intro rest2 env mem k h
    have hi := h i (List.mem_cons_self i is)
    have hrest : ∀ j ∈ is, j.op.isTerminator = false ∧ p j = false :=
      fun j hj => h j (List.mem_cons_of_mem i hj)
    rcases execInstr_not_term ce i env mem hi.1 with hstuck | ⟨e, m, hnext⟩
    · exact Or.inl (by simp [execInstrsCnt, hstuck])
    · have hstep : execInstrsCnt ce p ((i :: is) ++ rest2) env mem k =
          execInstrsCnt ce p (is ++ rest2) e m k := by
        simp [execInstrsCnt, hnext, hi.2]
      rw [hstep]
      exact ih rest2 e m k hrest



/-- The instruction returned by `lastBlockTerminator` is a terminator. -/
theorem lastBlockTerminator_isTerminator (F : Function) (t : Instr)
    (h : lastBlockTerminator F = some t) : t.op.isTerminator = true := by
  unfold lastBlockTerminator at h
  cases hl : F.blocks.getLast? with
  | none => rw [hl] at h; exact Option.noConfusion h
  | some bb => rw [hl] at h; exact getTerminator_isTerminator bb t h

/-- Elements of a list whose filtrate is empty never satisfy the predicate. -/
theorem filter_eq_false_of_nil {α : Type} (p : α → Bool) (l : List α)
    (h : l.filter p = []) (x : α) (hx : x ∈ l) : p x = false := by
  have h2 := List.filter_eq_nil_iff.mp h x hx
  simpa using h2

/-- Executing a transformed single-block function runs the add-one instruction
exactly once (when the run completes). -/
theorem singleBlock_cnt_inc (ce : CallEnv) (F2 : Function)
    (nm : String) (init2 : List Instr) (t : Instr) (rv : Option Operand)
    (hblocks : F2.blocks = [⟨nm, incSeq ++ init2 ++ decSeq ++ [t]⟩])
    (hstraight : ∀ i ∈ init2, i.op.isTerminator = false)
    (hclean : ∀ i ∈ init2, isIncInstr i = false)
    (hpt : isIncInstr t = false)
    (hret : t.op = .ret rv)
    (args : List Int) (mem : Mem) :
    execFunctionCnt ce isIncInstr 0 F2 args mem = none ∨
      ∃ v m, execFunctionCnt ce isIncInstr 0 F2 args mem = some (v, m, 1) := by
  have hop1 : loadIncInstr.op = .load ompStatusName := rfl
  have hop2 : incInstr.op = .add (.var "loadIncOmpStatus") (.const 1) := rfl
  have hop3 : storeIncInstr.op = .store (.var "incOmpStatus") ompStatusName := rfl
  have hop4 : loadDecInstr.op = .load ompStatusName := rfl
  have hop5 : decInstr.op = .sub (.var "loadDecOmpStatus") (.const 1) := rfl
  have hop6 : storeDecInstr.op = .store (.var "decOmpStatus") ompStatusName := rfl
  have hpA : isIncInstr loadIncInstr = false := by decide
  have hpB : isIncInstr incInstr = true := by decide
  have hpC : isIncInstr storeIncInstr = false := by decide
  have hpD : isIncInstr loadDecInstr = false := by decide
  have hpE : isIncInstr decInstr = false := by decide
  have hpF : isIncInstr storeDecInstr = false := by decide
  have key : ∀ env mem2 k, execInstrsCnt ce isIncInstr (init2 ++ (decSeq ++ [t])) env mem2 k = none ∨
      ∃ v m, execInstrsCnt ce isIncInstr (init2 ++ (decSeq ++ [t])) env mem2 k =
        some (.inr (v, m, k)) := by
    intro env mem2 k
    rcases straight_cnt ce isIncInstr init2 (decSeq ++ [t]) env mem2 k
        (fun i hi => ⟨hstraight i hi, hclean i hi⟩) with hnone | ⟨e2, m2, heq⟩
    · exact Or.inl hnone
    · rw [heq]
      rw [show decSeq ++ [t] = loadDecInstr :: decInstr :: storeDecInstr :: [t] from by
        simp [decSeq]]
      cases rv with
      | none =>
        simp only [execInstrsCnt, execInstr, hop4, hop5, hop6, hret, hpD, hpE, hpF, hpt,
          Bool.false_eq_true, if_false]
        exact Or.inr ⟨_, _, rfl⟩
      | some v =>
        simp only [execInstrsCnt, execInstr, hop4, hop5, hop6, hret, hpD, hpE, hpF, hpt,
          Bool.false_eq_true, if_false]
        exact Or.inr ⟨_, _, rfl⟩
  unfold execFunctionCnt
  rw [hblocks]
  dsimp only
  rw [show incSeq ++ init2 ++ decSeq ++ [t] =
    loadIncInstr :: incInstr :: storeIncInstr :: (init2 ++ (decSeq ++ [t])) from by
      simp [incSeq]]
  simp only [execInstrsCnt, execInstr, hop1, hop2, hop3, hpA, hpB, hpC,
    Bool.false_eq_true, if_false, if_true, Nat.zero_add]
  rcases key _ _ 1 with hnone | ⟨v, m, heq⟩
  · rw [hnone]
    exact Or.inl rfl
  · rw [heq]
    exact Or.inr ⟨v, m, rfl⟩

/-- Executing a transformed single-block function runs the subtract-one
instruction exactly once (when the run completes). -/
theorem singleBlock_cnt_dec (ce : CallEnv) (F2 : Function)
    (nm : String) (init2 : List Instr) (t : Instr) (rv : Option Operand)
    (hblocks : F2.blocks = [⟨nm, incSeq ++ init2 ++ decSeq ++ [t]⟩])
    (hstraight : ∀ i ∈ init2, i.op.isTerminator = false)
    (hclean : ∀ i ∈ init2, isDecInstr i = false)
    (hpt : isDecInstr t = false)
    (hret : t.op = .ret rv)
    (args : List Int) (mem : Mem) :
    execFunctionCnt ce isDecInstr 0 F2 args mem = none ∨
      ∃ v m, execFunctionCnt ce isDecInstr 0 F2 args mem = some (v, m, 1) := by
  have hop1 : loadIncInstr.op = .load ompStatusName := rfl
  have hop2 : incInstr.op = .add (.var "loadIncOmpStatus") (.const 1) := rfl
  have hop3 : storeIncInstr.op = .store (.var "incOmpStatus") ompStatusName := rfl
  have hop4 : loadDecInstr.op = .load ompStatusName := rfl
  have hop5 : decInstr.op = .sub (.var "loadDecOmpStatus") (.const 1) := rfl
  have hop6 : storeDecInstr.op = .store (.var "decOmpStatus") ompStatusName := rfl
  have hpA : isDecInstr loadIncInstr = false := by decide
  have hpB : isDecInstr incInstr = false := by decide
  have hpC : isDecInstr storeIncInstr = false := by decide
  have hpD : isDecInstr loadDecInstr = false := by decide
  have hpE : isDecInstr decInstr = true := by decide
  have hpF : isDecInstr storeDecInstr = false := by decide
  have key : ∀ env mem2 k, execInstrsCnt ce isDecInstr (init2 ++ (decSeq ++ [t])) env mem2 k = none ∨
      ∃ v m, execInstrsCnt ce isDecInstr (init2 ++ (decSeq ++ [t])) env mem2 k =
        some (.inr (v, m, k + 1)) := by
    intro env mem2 k
    rcases straight_cnt ce isDecInstr init2 (decSeq ++ [t]) env mem2 k
        (fun i hi => ⟨hstraight i hi, hclean i hi⟩) with hnone | ⟨e2, m2, heq⟩
    · exact Or.inl hnone
    · rw [heq]
      rw [show decSeq ++ [t] = loadDecInstr :: decInstr :: storeDecInstr :: [t] from by
        simp [decSeq]]
      cases rv with
      | none =>
        simp only [execInstrsCnt, execInstr, hop4, hop5, hop6, hret, hpD, hpE, hpF, hpt,
          Bool.false_eq_true, if_false, if_true]
        exact Or.inr ⟨_, _, rfl⟩
      | some v =>
        simp only [execInstrsCnt, execInstr, hop4, hop5, hop6, hret, hpD, hpE, hpF, hpt,
          Bool.false_eq_true, if_false, if_true]
        exact Or.inr ⟨_, _, rfl⟩
  unfold execFunctionCnt
  rw [hblocks]
  dsimp only
  rw [show incSeq ++ init2 ++ decSeq ++ [t] =
    loadIncInstr :: incInstr :: storeIncInstr :: (init2 ++ (decSeq ++ [t])) from by
      simp [incSeq]]
  simp only [execInstrsCnt, execInstr, hop1, hop2, hop3, hpA, hpB, hpC,
    Bool.false_eq_true, if_false, Nat.zero_add]
  rcases key _ _ 0 with hnone | ⟨v, m, heq⟩
  · rw [hnone]
    exact Or.inl rfl
  · rw [heq]
    simp only [Nat.zero_add]
    exact Or.inr ⟨v, m, rfl⟩



/-- A failed flag lookup means no flag-named global exists. -/
theorem flagCount_none (M : Module) (h : M.getNamedGlobal ompStatusName = none) :
    flagCount M = 0 := by
  unfold Module.getNamedGlobal at h
  unfold flagCount
  have h2 := List.find?_eq_none.mp h
  rw [List.filter_eq_nil_iff.mpr h2]
  rfl

/-- A successful flag lookup means at least one flag-named global exists. -/
theorem flagCount_found (M : Module) (g : GlobalVariable)
    (h : M.getNamedGlobal ompStatusName = some g) : 1 ≤ flagCount M := by
  unfold Module.getNamedGlobal at h
  unfold flagCount
  have hmem : g ∈ M.globals := List.mem_of_find?_eq_some h
  have hp := List.find?_some h
  have : g ∈ M.globals.filter (fun g2 => g2.name = ompStatusName) :=
    List.mem_filter.mpr ⟨hmem, hp⟩
  exact List.length_pos.mpr (List.ne_nil_of_mem this)

/-- Appending a flag-named global increments the flag count. -/
theorem flagCount_append (M : Module) (g : GlobalVariable) (hg : g.name = ompStatusName) :
    flagCount { M with globals := M.globals ++ [g] } = flagCount M + 1 := by
  unfold flagCount
  simp [List.filter_append, hg]

/-- Replacing a function by one of the same name preserves the name list. -/
theorem replace_names (fs : List Function) (n : String) (F2 : Function) (h : F2.name = n) :
    (fs.map (fun g => if g.name = n then F2 else g)).map (fun g => g.name) =
      fs.map (fun g => g.name) := by
  rw [List.map_map]
  apply List.map_congr_left
  intro g hg
  by_cases hgn : g.name = n
  · simp [hgn, h]
  · simp [hgn]

/-- A successful '.omp' instrumentation keeps the globals and function names. -/
theorem instrumentOmp_ok (M : Module) (F : Function) (M2 : Module)
    (h : instrumentOmp M F = .ok M2) :
    M2.globals = M.globals ∧
    M2.functions.map (fun f => f.name) = M.functions.map (fun f => f.name) := by
  unfold instrumentOmp at h
  cases hb : F.blocks with
  | nil => rw [hb] at h; exact PassResult.noConfusion h
  | cons entry rest =>
    rw [hb] at h
    dsimp only at h
    cases he : entry.instrs.isEmpty with
    | true => rw [he] at h; simp at h
    | false =>
      rw [he] at h
      simp only [Bool.false_eq_true, if_false] at h
      cases hr : rest.getLast? with
      | none =>
        rw [hr] at h
        dsimp only at h
        cases ht : (ompEntry entry).getTerminator with
        | none => rw [ht] at h; exact PassResult.noConfusion h
        | some t =>
          rw [ht] at h
          dsimp only at h
          cases h
          exact ⟨rfl, replace_names M.functions F.name _ rfl⟩
      | some lastBB =>
        rw [hr] at h
        dsimp only at h
        cases ht : lastBB.getTerminator with
        | none => rw [ht] at h; exact PassResult.noConfusion h
        | some t =>
          rw [ht] at h
          dsimp only at h
          cases h
          exact ⟨rfl, replace_names M.functions F.name _ rfl⟩

/-- A successful sequential instrumentation keeps the globals and retains
every existing function name. -/
theorem instrumentSequential_ok (M : Module) (F : Function) (M2 : Module)
    (h : instrumentSequential M F = .ok M2) :
    M2.globals = M.globals ∧
    ∀ n, n ∈ M.functions.map (fun f => f.name) → n ∈ M2.functions.map (fun f => f.name) := by
  unfold instrumentSequential at h
  cases hb : F.blocks with
  | nil => rw [hb] at h; exact PassResult.noConfusion h
  | cons entry rest =>
    rw [hb] at h
    dsimp only at h
    cases hi : entry.instrs with
    | nil => rw [hi] at h; exact PassResult.noConfusion h
    | cons i0 irest =>
      rw [hi] at h
      dsimp only at h
      rw [if_neg (by simp)] at h
      cases hd : (i0 :: irest).find? (fun i => i.dbg.isSome) with
      | none => rw [← hi, hi] at h; rw [hd] at h; exact PassResult.noConfusion h
      | some di =>
        rw [hd] at h
        dsimp only at h
        cases h
        constructor
        · rfl
        · intro n hn
          rw [List.map_append]
          apply List.mem_append_left
          rw [replace_names M.functions F.name (mkDispatcher F entry rest di.dbg) rfl]
          exact hn



/-- The flag count depends only on the globals. -/
theorem flagCount_globals_eq (M M2 : Module) (h : M2.globals = M.globals) :
    flagCount M2 = flagCount M := by
  unfold flagCount
  rw [h]

/-- One successful pass invocation: the flag count never drops, stays at most
one, reaches one when the function is `main` or non-excluded, only flag
globals are added, and function names persist. -/
theorem runOnFunction_flag_step (M : Module) (F : Function) (M2 : Module)
    (h : runOnFunction M F = .ok M2) :
    flagCount M ≤ flagCount M2 ∧
    (flagCount M ≤ 1 → flagCount M2 ≤ 1) ∧
    ((F.name = "main" ∨ excludedName F.name = false) → 1 ≤ flagCount M2) ∧
    (∀ g ∈ M2.globals, g ∈ M.globals ∨ g = mainFlagGlobal ∨ g = externFlagGlobal) ∧
    (∀ n, n ∈ M.functions.map (fun f => f.name) → n ∈ M2.functions.map (fun f => f.name)) := by
  unfold runOnFunction at h
  by_cases hm : F.name = "main"
  · rw [if_pos hm] at h
    cases hg : M.getNamedGlobal ompStatusName with
    | some g =>
      rw [hg] at h
      cases h
      exact ⟨le_refl _, fun h1 => h1, fun _ => flagCount_found M g hg,
        fun g2 hg2 => Or.inl hg2, fun n hn => hn⟩
    | none =>
      rw [hg] at h
      cases h
      have h0 := flagCount_none M hg
      have h1 := flagCount_append M mainFlagGlobal rfl
      refine ⟨?_, ?_, ?_, ?_, fun n hn => hn⟩
      · omega
      · omega
      · intro _; omega
      · intro g2 hg2
        rcases List.mem_append.mp hg2 with h2 | h2
        · exact Or.inl h2
        · exact Or.inr (Or.inl (List.mem_singleton.mp h2))
  · rw [if_neg hm] at h
    cases hex : excludedName F.name with
    | true =>
      rw [hex] at h
      simp only [if_true] at h
      cases h
      refine ⟨le_refl _, fun h1 => h1, ?_, fun g2 hg2 => Or.inl hg2, fun n hn => hn⟩
      intro hcr
      rcases hcr with h2 | h2
      · exact absurd h2 hm
      · exact Bool.noConfusion h2
    | false =>
      rw [hex] at h
      simp only [Bool.false_eq_true, if_false] at h
      -- the flag is ensured, then the function is instrumented
      have hinstr : ∀ M1 : Module, (if strStartsWith F.name ".omp" then instrumentOmp M1 F
            else instrumentSequential M1 F) = .ok M2 →
          M2.globals = M1.globals ∧
          ∀ n, n ∈ M1.functions.map (fun f => f.name) →
            n ∈ M2.functions.map (fun f => f.name) := by
        intro M1 h2
        cases hs : strStartsWith F.name ".omp" with
        | true =>
          rw [hs] at h2
          simp only [if_true] at h2
          obtain ⟨ha, hb2⟩ := instrumentOmp_ok M1 F M2 h2
          exact ⟨ha, fun n hn => by rw [hb2]; exact hn⟩
        | false =>
          rw [hs] at h2
          simp only [Bool.false_eq_true, if_false] at h2
          exact instrumentSequential_ok M1 F M2 h2
      cases hg : M.getNamedGlobal ompStatusName with
      | some g =>
        rw [hg] at h
        obtain ⟨ha, hb2⟩ := hinstr M h
        have hfc := flagCount_globals_eq M M2 ha
        refine ⟨by omega, fun h1 => by omega, fun _ => ?_, ?_, hb2⟩
        · have := flagCount_found M g hg
          omega
        · intro g2 hg2
          rw [ha] at hg2
          exact Or.inl hg2
      | none =>
        rw [hg] at h
        obtain ⟨ha, hb2⟩ := hinstr _ h
        have h0 := flagCount_none M hg
        have h1 := flagCount_append M externFlagGlobal rfl
        have hfc := flagCount_globals_eq _ M2 ha
        rw [h1, h0] at hfc
        refine ⟨by omega, fun _ => by omega, fun _ => by omega, ?_, hb2⟩
        intro g2 hg2
        rw [ha] at hg2
        rcases List.mem_append.mp hg2 with h2 | h2
        · exact Or.inl h2
        · exact Or.inr (Or.inr (List.mem_singleton.mp h2))



/-- The flag invariants hold over any successful sequence of invocations. -/
theorem runSequence_inv (ns : List String) :
    ∀ M M2 : Module, runSequence M ns = .ok M2 →
      flagCount M ≤ flagCount M2 ∧
      (flagCount M ≤ 1 → flagCount M2 ≤ 1) ∧
      (∀ g ∈ M2.globals, g ∈ M.globals ∨ g = mainFlagGlobal ∨ g = externFlagGlobal) ∧
      ((∃ n ∈ ns, (n = "main" ∨ excludedName n = false) ∧
          n ∈ M.functions.map (fun f => f.name)) → 1 ≤ flagCount M2) := by
  induction ns with
  | nil =>
    intro M M2 h
    unfold runSequence at h
    cases h
    refine ⟨le_refl _, fun h1 => h1, fun g hg => Or.inl hg, ?_⟩
    rintro ⟨n, hn, _⟩
    exact absurd hn (List.not_mem_nil n)
  | cons n ns ih =>
    intro M M2 h
    unfold runSequence at h
    cases hstep : runOnFunctionName M n with
    | ok M1 =>
      rw [hstep] at h
      dsimp only at h
      obtain ⟨ih1, ih2, ih3, ih4⟩ := ih M1 M2 h
      have hstep2 : flagCount M ≤ flagCount M1 ∧
          (flagCount M ≤ 1 → flagCount M1 ≤ 1) ∧
          ((∃ F, M.functions.find? (fun f => f.name = n) = some F ∧
              (F.name = "main" ∨ excludedName F.name = false)) → 1 ≤ flagCount M1) ∧
          (∀ g ∈ M1.globals, g ∈ M.globals ∨ g = mainFlagGlobal ∨ g = externFlagGlobal) ∧
          (∀ m, m ∈ M.functions.map (fun f => f.name) →
            m ∈ M1.functions.map (fun f => f.name)) := by
        unfold runOnFunctionName at hstep
        cases hf : M.functions.find? (fun f => f.name = n) with
        | none =>
          rw [hf] at hstep
          cases hstep
          refine ⟨le_refl _, fun h1 => h1, ?_, fun g hg => Or.inl hg, fun m hm => hm⟩
          rintro ⟨F, hF, _⟩
          exact Option.noConfusion hF
        | some F =>
          rw [hf] at hstep
          obtain ⟨s1, s2, s3, s4, s5⟩ := runOnFunction_flag_step M F M1 hstep
          refine ⟨s1, s2, ?_, s4, s5⟩
          rintro ⟨F2, hF2, hcr⟩
          cases hF2
          exact s3 hcr
      obtain ⟨s1, s2, s3, s4, s5⟩ := hstep2
      refine ⟨le_trans s1 ih1, fun h1 => ih2 (s2 h1), ?_, ?_⟩
      · intro g hg
        rcases ih3 g hg with h2 | h2 | h2
        · exact s4 g h2
        · exact Or.inr (Or.inl h2)
        · exact Or.inr (Or.inr h2)
      · rintro ⟨n2, hn2, hcr, hpres⟩
        rcases List.mem_cons.mp hn2 with h2 | h2
        · subst h2
          obtain ⟨f, hfm, hfname⟩ := List.mem_map.mp hpres
          have hfind : ∃ F, M.functions.find? (fun f2 => f2.name = n2) = some F := by
            cases hff : M.functions.find? (fun f2 => f2.name = n2) with
            | some F => exact ⟨F, rfl⟩
            | none =>
              have := List.find?_eq_none.mp hff f hfm
              simp [hfname] at this
          obtain ⟨F, hF⟩ := hfind
          have hFname : F.name = n2 := by
            have := List.find?_some hF
            exact of_decide_eq_true this
          have h1 := s3 ⟨F, hF, by rw [hFname]; exact hcr⟩
          omega
        · exact ih4 ⟨n2, h2, hcr, s5 n2 hpres⟩
    | fatalError msg =>
      rw [hstep] at h
      exact PassResult.noConfusion h
    | crash =>
      rw [hstep] at h
      exact PassResult.noConfusion h

/-- On a sequential candidate whose entry block carries a debug location, the
pass succeeds and the resulting module is the original with the candidate
replaced by its dispatcher and the clone appended. -/
theorem runOnFunction_seq (M : Module) (F : Function) (entry : BasicBlock)
    (rest : List BasicBlock) (di : Instr)
    (hb : F.blocks = entry :: rest)
    (hmain : F.name ≠ "main")
    (hexcl : excludedName F.name = false)
    (homp : strStartsWith F.name ".omp" = false)
    (hdi : entry.instrs.find? (fun i => i.dbg.isSome) = some di) :
    ∃ M2, runOnFunction M F = .ok M2 ∧
      M2.functions = (M.functions.map (fun g =>
        if g.name = F.name then mkDispatcher F entry rest di.dbg else g)) ++ [seqClone F] := by
  have hne : entry.instrs ≠ [] := by
    intro h2
    rw [h2] at hdi
    exact Option.noConfusion hdi
  obtain ⟨M1, hrun, hM1f⟩ : ∃ M1, runOnFunction M F = instrumentSequential M1 F ∧
      M1.functions = M.functions := by
    unfold runOnFunction
    rw [if_neg hmain]
    simp only [hexcl, Bool.false_eq_true, if_false, homp]
    cases hg : M.getNamedGlobal ompStatusName with
    | some g => exact ⟨M, rfl, rfl⟩
    | none => exact ⟨{ M with globals := M.globals ++ [externFlagGlobal] }, rfl, rfl⟩
  rw [hrun]
  unfold instrumentSequential
  rw [hb]
  dsimp only
  cases hi : entry.instrs with
  | nil => exact absurd hi hne
  | cons i0 irest =>
    rw [hi] at hdi
    rw [hdi]
    dsimp only
    rw [if_neg (by simp)]
    exact ⟨_, rfl, by rw [hM1f]⟩

/-- A successful '.omp' instrumentation replaces only the function itself,
under its own name. -/
theorem instrumentOmp_ok2 (M : Module) (F : Function) (M2 : Module)
    (h : instrumentOmp M F = .ok M2) :
    ∃ F2 : Function, F2.name = F.name ∧ M2 = replaceFunction M F.name F2 := by
  unfold instrumentOmp at h
  cases hb : F.blocks with
  | nil => rw [hb] at h; exact PassResult.noConfusion h
  | cons entry rest =>
    rw [hb] at h
    dsimp only at h
    cases he : entry.instrs.isEmpty with
    | true => rw [he] at h; simp at h
    | false =>
      rw [he] at h
      simp only [Bool.false_eq_true, if_false] at h
      cases hr : rest.getLast? with
      | none =>
        rw [hr] at h
        dsimp only at h
        cases ht : (ompEntry entry).getTerminator with
        | none => rw [ht] at h; exact PassResult.noConfusion h
        | some t =>
          rw [ht] at h
          dsimp only at h
          cases h
          exact ⟨{ F with blocks := [ompAddDec (ompEntry entry) t] }, rfl, rfl⟩
      | some lastBB =>
        rw [hr] at h
        dsimp only at h
        cases ht : lastBB.getTerminator with
        | none => rw [ht] at h; exact PassResult.noConfusion h
        | some t =>
          rw [ht] at h
          dsimp only at h
          cases h
          exact ⟨{ F with blocks := ompEntry entry :: rest.dropLast ++ [ompAddDec lastBB t] },
            rfl, rfl⟩

/-- A successful sequential instrumentation replaces only the function itself
(under its own name) and appends the clone. -/
theorem instrumentSequential_ok2 (M : Module) (F : Function) (M2 : Module)
    (h : instrumentSequential M F = .ok M2) :
    ∃ F2 : Function, F2.name = F.name ∧
      M2 = { M with functions :=
        (M.functions.map (fun g => if g.name = F.name then F2 else g)) ++ [seqClone F] } := by
  unfold instrumentSequential at h
  cases hb : F.blocks with
  | nil => rw [hb] at h; exact PassResult.noConfusion h
  | cons entry rest =>
    rw [hb] at h
    dsimp only at h
    cases hi : entry.instrs with
    | nil => rw [hi] at h; exact PassResult.noConfusion h
    | cons i0 irest =>
      rw [hi] at h
      dsimp only at h
      rw [if_neg (by simp)] at h
      cases hd : (i0 :: irest).find? (fun i => i.dbg.isSome) with
      | none => rw [hd] at h; exact PassResult.noConfusion h
      | some di =>
        rw [hd] at h
        dsimp only at h
        cases h
        exact ⟨mkDispatcher F entry rest di.dbg, rfl, rfl⟩

/-- Updating then reading the same key gives the new value. -/
theorem updateMap_same (f : String → Int) (x : String) (v : Int) :
    updateMap f x v x = v := by
  simp [updateMap]

/-- Updating one key leaves other keys unchanged. -/
theorem updateMap_ne (f : String → Int) (x y : String) (v : Int) (h : y ≠ x) :
    updateMap f x v y = f y := by
  simp [updateMap, h]

/-- Block lookup skips a head block of a different name. -/
theorem findBlock_cons_ne (b : BasicBlock) (bs : List BasicBlock) (t : String)
    (h : b.name ≠ t) : findBlock (b :: bs) t = findBlock bs t := by
  unfold findBlock
  rw [List.find?_cons_of_neg]
  simpa using h

/-- Block lookup finds a head block of the right name. -/
theorem findBlock_cons_eq (b : BasicBlock) (bs : List BasicBlock) (t : String)
    (h : b.name = t) : findBlock (b :: bs) t = some b := by
  unfold findBlock
  rw [List.find?_cons_of_pos]
  simpa using h

/-- Block lookup skips a whole segment holding no block of the name. -/
theorem findBlock_append_not_mem (bs1 bs2 : List BasicBlock) (t : String)
    (h : t ∉ bs1.map (fun b => b.name)) :
    findBlock (bs1 ++ bs2) t = findBlock bs2 t := by
  induction bs1 with
  | nil => rfl
  | cons b bs ih =>
    have hb : b.name ≠ t := by
      intro h2
      exact h (by rw [← h2]; exact List.mem_map_of_mem _ (List.mem_cons_self b bs))
    have hrest : t ∉ bs.map (fun b2 => b2.name) :=
      fun h2 => h (List.mem_cons_of_mem _ h2)
    rw [List.cons_append, findBlock_cons_ne b _ t hb]
    exact ih hrest

/-- With distinct parameters, reading every parameter back from the initial
environment returns the argument list. -/
theorem bindParams_map (params : List String) (args : List Int)
    (hnd : params.Nodup) (hlen : args.length = params.length) :
    params.map (bindParams params args) = args := by
  induction params generalizing args with
  | nil =>
    cases args with
    | nil => rfl
    | cons a as => exact absurd hlen (by simp)
  | cons p ps ih =>
    cases args with
    | nil => exact absurd hlen (by simp)
    | cons a as =>
      have hnd2 : ps.Nodup := hnd.of_cons
      have hpn : p ∉ ps := by
        intro h2
        exact (List.nodup_cons.mp hnd).1 h2
      have hlen2 : as.length = ps.length := by simpa using hlen
      rw [List.map_cons]
      have hhead : bindParams (p :: ps) (a :: as) p = a := by
        unfold bindParams
        simp [List.zip_cons_cons]
      have htail : ps.map (bindParams (p :: ps) (a :: as)) = ps.map (bindParams ps as) := by
        apply List.map_congr_left
        intro q hq
        have hqp : ¬(q = p) := fun h2 => hpn (h2 ▸ hq)
        unfold bindParams
        rw [List.zip_cons_cons, List.find?_cons_of_neg]
        simp only [decide_eq_true_eq]
        exact fun h2 => hqp h2.symm
      rw [hhead, htail, ih as hnd2 hlen2]



/-- The two bindings the dispatcher prologue adds do not disturb the
parameters. -/
theorem env2_params_eq (params : List String) (args : List Int) (lo co : String)
    (vl vc : Int) (hnd : params.Nodup) (hlen : args.length = params.length)
    (hlo : lo ∉ params) (hco : co ∉ params) :
    params.map (fun p => updateMap (updateMap (bindParams params args) lo vl) co vc p)
      = args := by
  have h1 : params.map (fun p => updateMap (updateMap (bindParams params args) lo vl) co vc p)
      = params.map (bindParams params args) := by
    apply List.map_congr_left
    intro p hp
    have hp1 : p ≠ co := fun h => hco (h ▸ hp)
    have hp2 : p ≠ lo := fun h => hlo (h ▸ hp)
    rw [updateMap_ne (updateMap (bindParams params args) lo vl) co p vc hp1,
      updateMap_ne (bindParams params args) lo p vl hp2]
  rw [h1, bindParams_map params args hnd hlen]

/-- The dispatch block is named uniformly in both return shapes. -/
theorem dispatchThen_name (F : Function) (d : Option Nat) :
    (dispatchThen F d).name = thenName := by
  unfold dispatchThen
  split
  · rfl
  · rfl

/-- A clone name is never the empty string. -/
theorem cloneName_ne_empty (s : String) : s ++ cloneSuffix ≠ "" := by
  intro h
  have h2 := congrArg String.data h
  rw [String.data_append] at h2
  have h3 := congrArg List.length h2
  rw [List.length_append] at h3
  simp [cloneSuffix] at h3

/-- The dispatcher keeps the original parameter list. -/
theorem mkDispatcher_params (F : Function) (entry : BasicBlock)
    (rest : List BasicBlock) (d : Option Nat) :
    (mkDispatcher F entry rest d).params = F.params := rfl

/-- Identical updates preserve agreement off `s`. -/
theorem envAgree_update (s : List String) (env env' : Env) (henv : EnvAgree s env env')
    (x : String) (v : Int) : EnvAgree s (updateMap env x v) (updateMap env' x v) := by
  intro y hy
  unfold updateMap
  by_cases hyx : y = x
  · rw [if_pos hyx, if_pos hyx]
  · rw [if_neg hyx, if_neg hyx]
    exact henv y hy

/-- An operand not reading the names in `s` evaluates equally in agreeing
environments. -/
theorem evalOperand_agree (s : List String) (o : Operand) (env env' : Env)
    (hs : ∀ x ∈ s, o.usesVar x = false) (henv : EnvAgree s env env') :
    evalOperand env o = evalOperand env' o := by
  cases o with
  | const n => rfl
  | var y =>
    apply henv
    intro hy
    have h2 := hs y hy
    simp [Operand.usesVar] at h2

/-- An instruction not reading the names in `s` behaves identically (same
control effect, memory, and bindings off `s`) in agreeing environments. -/
theorem execInstr_agree (ce : CallEnv) (s : List String) (i : Instr) (env env' : Env)
    (mem : Mem) (hs : ∀ x ∈ s, i.op.usesVar x = false) (henv : EnvAgree s env env') :
    OutRel s (execInstr ce i env mem) (execInstr ce i env' mem) := by
  cases hop : i.op with
  | load g =>
    simp only [execInstr, hop]
    exact ⟨envAgree_update s env env' henv _ _, rfl⟩
  | store v g =>
    have hv : evalOperand env v = evalOperand env' v :=
      evalOperand_agree s v env env' (fun x hx => by have := hs x hx; simpa [Opcode.usesVar, hop] using this) henv
    simp only [execInstr, hop, hv]
    exact ⟨henv, rfl⟩
  | add a b =>
    have ha : evalOperand env a = evalOperand env' a :=
      evalOperand_agree s a env env' (fun x hx => by
        have h2 := hs x hx
        simp [Opcode.usesVar, hop] at h2
        exact h2.1) henv
    have hb2 : evalOperand env b = evalOperand env' b :=
      evalOperand_agree s b env env' (fun x hx => by
        have h2 := hs x hx
        simp [Opcode.usesVar, hop] at h2
        exact h2.2) henv
    simp only [execInstr, hop, ha, hb2]
    exact ⟨envAgree_update s env env' henv _ _, rfl⟩
  | sub a b =>
    have ha : evalOperand env a = evalOperand env' a :=
      evalOperand_agree s a env env' (fun x hx => by
        have h2 := hs x hx
        simp [Opcode.usesVar, hop] at h2
        exact h2.1) henv
    have hb2 : evalOperand env b = evalOperand env' b :=
      evalOperand_agree s b env env' (fun x hx => by
        have h2 := hs x hx
        simp [Opcode.usesVar, hop] at h2
        exact h2.2) henv
    simp only [execInstr, hop, ha, hb2]
    exact ⟨envAgree_update s env env' henv _ _, rfl⟩
  | icmpEq a b =>
    have ha : evalOperand env a = evalOperand env' a :=
      evalOperand_agree s a env env' (fun x hx => by
        have h2 := hs x hx
        simp [Opcode.usesVar, hop] at h2
        exact h2.1) henv
    have hb2 : evalOperand env b = evalOperand env' b :=
      evalOperand_agree s b env env' (fun x hx => by
        have h2 := hs x hx
        simp [Opcode.usesVar, hop] at h2
        exact h2.2) henv
    simp only [execInstr, hop, ha, hb2]
    exact ⟨envAgree_update s env env' henv _ _, rfl⟩
  | call fn as =>
    have hargs : as.map (evalOperand env) = as.map (evalOperand env') := by
      apply List.map_congr_left
      intro o ho
      exact evalOperand_agree s o env env' (fun x hx => by
        have h2 := hs x hx
        simp [Opcode.usesVar, hop] at h2
        exact h2 o ho) henv
    simp only [execInstr, hop, hargs]
    cases hce : ce fn (as.map (evalOperand env')) mem with
    | none => simp [OutRel]
    | some p =>
      obtain ⟨rv, mem2⟩ := p
      by_cases hn : i.name = ""
      · simp only [if_pos hn]
        exact ⟨henv, rfl⟩
      · simp only [if_neg hn]
        cases rv with
        | some v => exact ⟨envAgree_update s env env' henv _ _, rfl⟩
        | none => simp [OutRel]
  | br tg =>
    simp only [execInstr, hop]
    exact ⟨rfl, henv, rfl⟩
  | condbr c tg eg =>
    have hc : evalOperand env c = evalOperand env' c :=
      evalOperand_agree s c env env' (fun x hx => by
        have h2 := hs x hx
        simpa [Opcode.usesVar, hop] using h2) henv
    simp only [execInstr, hop, hc]
    exact ⟨rfl, henv, rfl⟩
  | ret v =>
    cases v with
    | none =>
      simp only [execInstr, hop]
      exact ⟨rfl, rfl⟩
    | some o =>
      have ho : evalOperand env o = evalOperand env' o :=
        evalOperand_agree s o env env' (fun x hx => by
          have h2 := hs x hx
          simpa [Opcode.usesVar, hop] using h2) henv
      simp only [execInstr, hop, ho]
      exact ⟨rfl, rfl⟩



/-- Block execution in agreeing environments produces related results. -/
theorem execInstrs_agree (ce : CallEnv) (s : List String) :
    ∀ (is2 : List Instr) (env env' : Env) (mem : Mem),
      (∀ i ∈ is2, ∀ x ∈ s, i.op.usesVar x = false) → EnvAgree s env env' →
      StepRel s (execInstrs ce is2 env mem) (execInstrs ce is2 env' mem) := by
  intro is2
  induction is2 with
  | nil =>
    intro env env' mem _ _
    simp [execInstrs, StepRel]
  | cons i is ih =>
    intro env env' mem hs henv
    have hrel := execInstr_agree ce s i env env' mem
      (hs i (List.mem_cons_self i is)) henv
    have hs2 : ∀ j ∈ is, ∀ x ∈ s, j.op.usesVar x = false :=
      fun j hj => hs j (List.mem_cons_of_mem i hj)
    cases h1 : execInstr ce i env mem with
    | none =>
      cases h2 : execInstr ce i env' mem with
      | none => simp [execInstrs, h1, h2, StepRel]
      | some o2 =>
        rw [h1, h2] at hrel
        cases o2 <;> exact absurd hrel (by simp [OutRel])
    | some o1 =>
      cases h2 : execInstr ce i env' mem with
      | none =>
        rw [h1, h2] at hrel
        cases o1 <;> exact absurd hrel (by simp [OutRel])
      | some o2 =>
        rw [h1, h2] at hrel
        cases o1 with
        | next e1 m1 =>
          cases o2 with
          | next e2 m2 =>
            obtain ⟨he, hm⟩ := hrel
            subst hm
            simp only [execInstrs, h1, h2]
            exact ih e1 e2 m1 hs2 he
          | jump t2 e2 m2 => exact absurd hrel (by simp [OutRel])
          | retv v2 m2 => exact absurd hrel (by simp [OutRel])
        | jump t1 e1 m1 =>
          cases o2 with
          | next e2 m2 => exact absurd hrel (by simp [OutRel])
          | jump t2 e2 m2 =>
            obtain ⟨htv, he, hm⟩ := hrel
            subst htv
            subst hm
            simp only [execInstrs, h1, h2]
            exact ⟨rfl, he, rfl⟩
          | retv v2 m2 => exact absurd hrel (by simp [OutRel])
        | retv v1 m1 =>
          cases o2 with
          | next e2 m2 => exact absurd hrel (by simp [OutRel])
          | jump t2 e2 m2 => exact absurd hrel (by simp [OutRel])
          | retv v2 m2 =>
            obtain ⟨hv, hm⟩ := hrel
            subst hv
            subst hm
            simp [execInstrs, h1, h2, StepRel]

/-- A jump produced by an instruction goes to one of its static targets. -/
theorem execInstr_jump_target (ce : CallEnv) (i : Instr) (env : Env) (mem : Mem)
    (t : String) (e : Env) (m : Mem)
    (h : execInstr ce i env mem = some (.jump t e m)) : t ∈ i.op.targets := by
  cases hop : i.op with
  | load g => rw [execInstr, hop] at h; exact Outcome.noConfusion (Option.some.inj h)
  | store v g => rw [execInstr, hop] at h; exact Outcome.noConfusion (Option.some.inj h)
  | add a b => rw [execInstr, hop] at h; exact Outcome.noConfusion (Option.some.inj h)
  | sub a b => rw [execInstr, hop] at h; exact Outcome.noConfusion (Option.some.inj h)
  | icmpEq a b => rw [execInstr, hop] at h; exact Outcome.noConfusion (Option.some.inj h)
  | call fn as =>
    rw [execInstr, hop] at h
    dsimp only at h
    cases hce : ce fn (as.map (evalOperand env)) mem with
    | none => rw [hce] at h; exact Option.noConfusion h
    | some p =>
      obtain ⟨rv, mem2⟩ := p
      rw [hce] at h
      dsimp only at h
      by_cases hn : i.name = ""
      · rw [if_pos hn] at h
        exact Outcome.noConfusion (Option.some.inj h)
      · rw [if_neg hn] at h
        cases rv with
        | some v => exact Outcome.noConfusion (Option.some.inj h)
        | none => exact Option.noConfusion h
  | br tg =>
    rw [execInstr, hop] at h
    have := Option.some.inj h
    cases this
    simp [Opcode.targets, hop]
  | condbr c tg eg =>
    rw [execInstr, hop] at h
    have h2 := Option.some.inj h
    cases h2
    simp only [Opcode.targets, hop]
    by_cases hc : evalOperand env c ≠ 0
    · rw [if_pos hc]
      exact List.mem_cons_self _ _
    · rw [if_neg hc]
      exact List.mem_cons_of_mem _ (List.mem_cons_self _ _)
  | ret v =>
    cases v with
    | none => rw [execInstr, hop] at h; exact Outcome.noConfusion (Option.some.inj h)
    | some o => rw [execInstr, hop] at h; exact Outcome.noConfusion (Option.some.inj h)

/-- A jump out of a block lands in the allowed target set. -/
theorem execInstrs_jump_target (ce : CallEnv) (allowed : List String) :
    ∀ (is2 : List Instr) (env : Env) (mem : Mem) (t : String) (e : Env) (m : Mem),
      (∀ i ∈ is2, i.op.targets.all (fun u => allowed.contains u) = true) →
      execInstrs ce is2 env mem = some (.inl (t, e, m)) →
      allowed.contains t = true := by
  intro is2
  induction is2 with
  | nil =>
    intro env mem t e m _ h
    rw [execInstrs] at h
    exact Option.noConfusion h
  | cons i is ih =>
    intro env mem t e m hall h
    rw [execInstrs] at h
    cases h1 : execInstr ce i env mem with
    | none => rw [h1] at h; exact Option.noConfusion h
    | some o =>
      rw [h1] at h
      cases o with
      | next e2 m2 =>
        exact ih e2 m2 t e m (fun j hj => hall j (List.mem_cons_of_mem i hj)) h
      | jump t2 e2 m2 =>
        have h2 : t2 = t := by
          have h3 := Option.some.inj h
          cases h3
          rfl
        subst h2
        have h3 := execInstr_jump_target ce i env mem t2 e2 m2 h1
        have h4 := hall i (List.mem_cons_self i is)
        exact List.all_eq_true.mp h4 t2 h3
      | retv v2 m2 =>
        exact Sum.noConfusion (Option.some.inj h)



/-- A successful search in the left part of an appended list wins. -/
theorem find?_append_left {α : Type} (p : α → Bool) :
    ∀ (l1 l2 : List α) (x : α), l1.find? p = some x → (l1 ++ l2).find? p = some x := by
  intro l1
  induction l1 with
  | nil => intro l2 x h; exact Option.noConfusion h
  | cons a l ih =>
    intro l2 x h
    by_cases hp : p a = true
    · rw [List.find?_cons_of_pos _ hp] at h
      rw [List.cons_append, List.find?_cons_of_pos _ hp]
      exact h
    · rw [List.find?_cons_of_neg _ hp] at h
      rw [List.cons_append, List.find?_cons_of_neg _ hp]
      exact ih l2 x h

/-- A block found in the left segment is found in the appended list. -/
theorem findBlock_append_left (l1 l2 : List BasicBlock) (t : String) (bb : BasicBlock)
    (h : findBlock l1 t = some bb) : findBlock (l1 ++ l2) t = some bb :=
  find?_append_left _ l1 l2 bb h

/-- Simulation for the flag-not-equal-one path: from any block of the
original body, execution over the original block list and over the
dispatcher's block list (original entry renamed to the split block, dispatch
block appended) produce identical results, provided the body never reads the
fresh names and only branches into the original non-entry blocks. -/
theorem execFrom_sim (ce : CallEnv) (s : List String) (entry : BasicBlock)
    (rest : List BasicBlock) (B0 B1 B2 : BasicBlock)
    (hB0 : B0.name = entry.name) (hB1 : B1.name = entrySplitName)
    (hs : ∀ b ∈ entry :: rest, ∀ i ∈ b.instrs, ∀ x ∈ s, i.op.usesVar x = false)
    (ht : ∀ b ∈ entry :: rest, ∀ i ∈ b.instrs,
      i.op.targets.all (fun u => (rest.map (fun b2 => b2.name)).contains u) = true)
    (henr : entry.name ∉ rest.map (fun b2 => b2.name))
    (hesr : entrySplitName ∉ rest.map (fun b2 => b2.name)) :
    ∀ (fuel : Nat) (t : String) (env env' : Env) (mem : Mem),
      (rest.map (fun b2 => b2.name)).contains t = true →
      EnvAgree s env env' →
      execFrom ce (entry :: rest) fuel t env mem =
        execFrom ce (B0 :: B1 :: (rest ++ [B2])) fuel t env' mem := by
  intro fuel
  induction fuel with
  | zero => intro t env env' mem _ _; rfl
  | succ fuel ih =>
    intro t env env' mem htmem henv
    have htm2 : t ∈ rest.map (fun b2 => b2.name) := List.mem_of_elem_eq_true htmem
    obtain ⟨bb, hfind, hbbmem⟩ : ∃ bb, findBlock rest t = some bb ∧ bb ∈ rest := by
      obtain ⟨b, hbm, hbn⟩ := List.mem_map.mp htm2
      cases hf : findBlock rest t with
      | none =>
        have h2 := List.find?_eq_none.mp hf b hbm
        simp [hbn] at h2
      | some bb => exact ⟨bb, rfl, List.mem_of_find?_eq_some hf⟩
    have htne : entry.name ≠ t := fun h2 => henr (h2 ▸ htm2)
    have htes : entrySplitName ≠ t := fun h2 => hesr (h2 ▸ htm2)
    have hfindL : findBlock (entry :: rest) t = some bb := by
      rw [findBlock_cons_ne entry _ _ htne]
      exact hfind
    have hfindR : findBlock (B0 :: B1 :: (rest ++ [B2])) t = some bb := by
      rw [findBlock_cons_ne B0 _ _ (by rw [hB0]; exact htne),
        findBlock_cons_ne B1 _ _ (by rw [hB1]; exact htes)]
      exact findBlock_append_left rest [B2] t bb hfind
    unfold execFrom
    rw [hfindL, hfindR]
    dsimp only
    have hrel := execInstrs_agree ce s bb.instrs env env' mem
      (hs bb (List.mem_cons_of_mem entry hbbmem)) henv
    cases h1 : execInstrs ce bb.instrs env mem with
    | none =>
      cases h2 : execInstrs ce bb.instrs env' mem with
      | none => rfl
      | some o2 =>
        rw [h1, h2] at hrel
        cases o2 <;> exact absurd hrel (by simp [StepRel])
    | some o1 =>
      cases h2 : execInstrs ce bb.instrs env' mem with
      | none =>
        rw [h1, h2] at hrel
        cases o1 <;> exact absurd hrel (by simp [StepRel])
      | some o2 =>
        rw [h1, h2] at hrel
        cases o1 with
        | inl p1 =>
          obtain ⟨t2, e2, m2⟩ := p1
          cases o2 with
          | inl p2 =>
            obtain ⟨t3, e3, m3⟩ := p2
            obtain ⟨htv, he, hm⟩ := hrel
            subst htv
            subst hm
            have htarget : (rest.map (fun b2 => b2.name)).contains t2 = true :=
              execInstrs_jump_target ce _ bb.instrs env mem t2 e2 m2
                (fun i hi => ht bb (List.mem_cons_of_mem entry hbbmem) i hi) h1
            exact ih t2 e2 e3 m2 htarget he
          | inr r2 => exact absurd hrel (by simp [StepRel])
        | inr r1 =>
          cases o2 with
          | inl p2 => exact absurd hrel (by simp [StepRel])
          | inr r2 =>
            rw [hrel]

/-! ## Claim theorems -/

/-- C4 (amended): for every '.omp' function with a non-empty entry block and a
terminator `t` in its final block (and no pre-existing instrumentation
pattern), the transformed function contains exactly one add-one and one
subtract-one instruction, the increment sequence sits in front of every
original entry instruction, the decrement sequence sits immediately before
`t`, and — restricted to single-block functions, where the final block runs
exactly once per invocation — any completing invocation executes the add-one
exactly once and the subtract-one exactly once.  The amendment restricts the
runtime one-increment/one-decrement consequence to single-exit (single-block)
functions: `c4_counterexample` shows a multi-block function whose looping
final block executes the decrement twice in one invocation. -/
theorem c4_amended (M : Module) (F : Function) (entry : BasicBlock)
    (rest : List BasicBlock) (t : Instr)
    (hFm : F ∈ M.functions)
    (hb : F.blocks = entry :: rest)
    (hmain : F.name ≠ "main")
    (hexcl : excludedName F.name = false)
    (homp : strStartsWith F.name ".omp" = true)
    (hne : entry.instrs ≠ [])
    (hterm : lastBlockTerminator F = some t)
    (hcleanInc : F.countInstr isIncInstr = 0)
    (hcleanDec : F.countInstr isDecInstr = 0)
    (hstraight : rest = [] → ∀ i ∈ entry.instrs.dropLast, i.op.isTerminator = false)
    (hret : rest = [] → ∃ rv, t.op = .ret rv) :
    ∃ M2 F2, runOnFunction M F = .ok M2 ∧ F2 ∈ M2.functions ∧ F2.name = F.name ∧
      F2.countInstr isIncInstr = 1 ∧ F2.countInstr isDecInstr = 1 ∧
      (∃ tail, F2.blocks.head? = some ⟨entry.name, incSeq ++ tail⟩) ∧
      (∃ nm2 pre, F2.blocks.getLast? = some ⟨nm2, pre ++ decSeq ++ [t]⟩) ∧
      (rest = [] → ∀ ce args mem,
        (execFunctionCnt ce isIncInstr 0 F2 args mem = none ∨
          ∃ v m, execFunctionCnt ce isIncInstr 0 F2 args mem = some (v, m, 1)) ∧
        (execFunctionCnt ce isDecInstr 0 F2 args mem = none ∨
          ∃ v m, execFunctionCnt ce isDecInstr 0 F2 args mem = some (v, m, 1))) := by
  obtain ⟨M1, hrun, hM1f⟩ : ∃ M1, runOnFunction M F = instrumentOmp M1 F ∧
      M1.functions = M.functions := by
    unfold runOnFunction
    rw [if_neg hmain]
    simp only [hexcl, Bool.false_eq_true, if_false, homp, if_true]
    cases hg : M.getNamedGlobal ompStatusName with
    | some g => exact ⟨M, rfl, rfl⟩
    | none => exact ⟨{ M with globals := M.globals ++ [externFlagGlobal] }, rfl, rfl⟩
  have hFm1 : F ∈ M1.functions := by rw [hM1f]; exact hFm
  have htT : t.op.isTerminator = true := lastBlockTerminator_isTerminator F t hterm
  have htInc : isIncInstr t = false := by
    cases hq : isIncInstr t with
    | false => rfl
    | true =>
      have h1 : t = incInstr := of_decide_eq_true hq
      rw [h1] at htT
      exact absurd htT (by decide)
  have htDec : isDecInstr t = false := by
    cases hq : isDecInstr t with
    | false => rfl
    | true =>
      have h1 : t = decInstr := of_decide_eq_true hq
      rw [h1] at htT
      exact absurd htT (by decide)
  have hne2 : entry.instrs.isEmpty = false := by
    cases h2 : entry.instrs with
    | nil => exact absurd h2 hne
    | cons a l => rfl
  have hfiltIncE : entry.instrs.filter isIncInstr = [] :=
    countInstr_block_nil F isIncInstr hcleanInc entry (by rw [hb]; exact List.mem_cons_self _ _)
  have hfiltDecE : entry.instrs.filter isDecInstr = [] :=
    countInstr_block_nil F isDecInstr hcleanDec entry (by rw [hb]; exact List.mem_cons_self _ _)
  have hcntInc1 : (incSeq.filter isIncInstr).length = 1 := by decide
  have hcntInc2 : (decSeq.filter isIncInstr).length = 0 := by decide
  have hcntDec1 : (incSeq.filter isDecInstr).length = 0 := by decide
  have hcntDec2 : (decSeq.filter isDecInstr).length = 1 := by decide
  rw [hrun]
  unfold instrumentOmp
  rw [hb]
  simp only [hne2, Bool.false_eq_true, if_false]
  cases hr : rest.getLast? with
  | none =>
    have hrest : rest = [] := List.getLast?_eq_none_iff.mp hr
    subst hrest
    have hlast : F.blocks.getLast? = some entry := by rw [hb]; rfl
    have hterm2 : entry.getTerminator = some t := by
      unfold lastBlockTerminator at hterm
      rw [hlast] at hterm
      exact hterm
    have hterm3 : (ompEntry entry).getTerminator = some t := by
      rw [ompEntry_getTerminator entry hne]
      exact hterm2
    rw [hterm3]
    dsimp only
    have hAD : ompAddDec (ompEntry entry) t =
        ⟨entry.name, incSeq ++ entry.instrs.dropLast ++ decSeq ++ [t]⟩ := by
      unfold ompAddDec ompEntry
      simp [List.dropLast_append_of_ne_nil _ hne]
    rw [hAD]
    refine ⟨replaceFunction M1 F.name
        { F with blocks := [⟨entry.name, incSeq ++ entry.instrs.dropLast ++ decSeq ++ [t]⟩] },
      { F with blocks := [⟨entry.name, incSeq ++ entry.instrs.dropLast ++ decSeq ++ [t]⟩] },
      rfl, ?_, rfl, ?_, ?_, ?_, ?_, ?_⟩
    · -- membership in the rewritten module
      have hmem := List.mem_map_of_mem
        (fun g => if g.name = F.name then
          { F with blocks := [⟨entry.name, incSeq ++ entry.instrs.dropLast ++ decSeq ++ [t]⟩] }
          else g) hFm1
      simpa [replaceFunction] using hmem
    · -- increment count
      simp only [Function.countInstr, List.map_cons, List.map_nil, List.sum_cons,
        List.sum_nil, List.filter_append, List.length_append, hcntInc1, hcntInc2,
        filter_dropLast_nil _ _ hfiltIncE, List.filter_cons, htInc, Bool.false_eq_true,
        if_false, List.filter_nil, List.length_nil]
      omega
    · -- decrement count
      simp only [Function.countInstr, List.map_cons, List.map_nil, List.sum_cons,
        List.sum_nil, List.filter_append, List.length_append, hcntDec1, hcntDec2,
        filter_dropLast_nil _ _ hfiltDecE, List.filter_cons, htDec, Bool.false_eq_true,
        if_false, List.filter_nil, List.length_nil]
      omega
    · exact ⟨entry.instrs.dropLast ++ (decSeq ++ [t]), by simp [List.append_assoc]⟩
    · exact ⟨entry.name, incSeq ++ entry.instrs.dropLast, rfl⟩
    · intro _ ce args mem
      obtain ⟨rv, hrv⟩ := hret rfl
      constructor
      · exact singleBlock_cnt_inc ce _ entry.name entry.instrs.dropLast t rv rfl
          (hstraight rfl)
          (fun i hi => filter_eq_false_of_nil _ _ hfiltIncE i
            ((List.dropLast_sublist entry.instrs).subset hi))
          htInc hrv args mem
      · exact singleBlock_cnt_dec ce _ entry.name entry.instrs.dropLast t rv rfl
          (hstraight rfl)
          (fun i hi => filter_eq_false_of_nil _ _ hfiltDecE i
            ((List.dropLast_sublist entry.instrs).subset hi))
          htDec hrv args mem
  | some lastBB =>
    have hrestne : rest ≠ [] := by
      intro h2; rw [h2] at hr; exact Option.noConfusion hr
    have hlast : F.blocks.getLast? = some lastBB := by
      rw [hb, show (entry :: rest) = [entry] ++ rest from rfl,
        List.getLast?_append_of_ne_nil _ hrestne]
      exact hr
    have hterm2 : lastBB.getTerminator = some t := by
      unfold lastBlockTerminator at hterm
      rw [hlast] at hterm
      exact hterm
    have hlastMem : lastBB ∈ rest := List.mem_of_mem_getLast? hr
    have hfiltIncL : lastBB.instrs.filter isIncInstr = [] :=
      countInstr_block_nil F isIncInstr hcleanInc lastBB
        (by rw [hb]; exact List.mem_cons_of_mem _ hlastMem)
    have hfiltDecL : lastBB.instrs.filter isDecInstr = [] :=
      countInstr_block_nil F isDecInstr hcleanDec lastBB
        (by rw [hb]; exact List.mem_cons_of_mem _ hlastMem)
    dsimp only
    rw [hterm2]
    dsimp only
    refine ⟨replaceFunction M1 F.name
        { F with blocks := ompEntry entry :: rest.dropLast ++ [ompAddDec lastBB t] },
      { F with blocks := ompEntry entry :: rest.dropLast ++ [ompAddDec lastBB t] },
      rfl, ?_, rfl, ?_, ?_, ?_, ?_, fun h2 => absurd h2 hrestne⟩
    · have hmem := List.mem_map_of_mem
        (fun g => if g.name = F.name then
          { F with blocks := ompEntry entry :: rest.dropLast ++ [ompAddDec lastBB t] }
          else g) hFm1
      simpa [replaceFunction] using hmem
    · -- increment count
      have h1 : ((rest.dropLast.map (fun b => (b.instrs.filter isIncInstr).length)).sum) = 0 := by
        apply List.sum_eq_zero_iff.mpr
        intro x hx
        obtain ⟨b, hbm, hbx⟩ := List.mem_map.mp hx
        have hbr : b ∈ rest := (List.dropLast_sublist rest).subset hbm
        have := countInstr_block_nil F isIncInstr hcleanInc b
          (by rw [hb]; exact List.mem_cons_of_mem _ hbr)
        rw [← hbx, this]
        rfl
      have h2 : ((ompAddDec lastBB t).instrs.filter isIncInstr).length = 0 := by
        unfold ompAddDec
        simp only [List.filter_append, List.length_append, hcntInc2,
          filter_dropLast_nil _ _ hfiltIncL, List.filter_cons, htInc, Bool.false_eq_true,
          if_false, List.filter_nil, List.length_nil]
      have hhead : ((ompEntry entry).instrs.filter isIncInstr).length = 1 := by
        unfold ompEntry
        simp only [List.filter_append, List.length_append, hcntInc1, hfiltIncE,
          List.length_nil]
      unfold Function.countInstr
      dsimp only
      rw [List.map_append, List.sum_append, List.map_cons, List.sum_cons, h1, hhead,
        List.map_cons, List.map_nil, List.sum_cons, List.sum_nil, h2]
      omega
    · -- decrement count
      have h1 : ((rest.dropLast.map (fun b => (b.instrs.filter isDecInstr).length)).sum) = 0 := by
        apply List.sum_eq_zero_iff.mpr
        intro x hx
        obtain ⟨b, hbm, hbx⟩ := List.mem_map.mp hx
        have hbr : b ∈ rest := (List.dropLast_sublist rest).subset hbm
        have := countInstr_block_nil F isDecInstr hcleanDec b
          (by rw [hb]; exact List.mem_cons_of_mem _ hbr)
        rw [← hbx, this]
        rfl
      have h2 : ((ompAddDec lastBB t).instrs.filter isDecInstr).length = 1 := by
        unfold ompAddDec
        simp only [List.filter_append, List.length_append, hcntDec2,
          filter_dropLast_nil _ _ hfiltDecL, List.filter_cons, htDec, Bool.false_eq_true,
          if_false, List.filter_nil, List.length_nil]
      have hhead : ((ompEntry entry).instrs.filter isDecInstr).length = 0 := by
        unfold ompEntry
        simp only [List.filter_append, List.length_append, hcntDec1, hfiltDecE,
          List.length_nil]
      unfold Function.countInstr
      dsimp only
      rw [List.map_append, List.sum_append, List.map_cons, List.sum_cons, h1, hhead,
        List.map_cons, List.map_nil, List.sum_cons, List.sum_nil, h2]
      omega
    · exact ⟨entry.instrs, rfl⟩
    · refine ⟨lastBB.name, lastBB.instrs.dropLast, ?_⟩
      rw [show (ompEntry entry :: rest.dropLast ++ [ompAddDec lastBB t]) =
        (ompEntry entry :: rest.dropLast) ++ [ompAddDec lastBB t] from by simp,
        List.getLast?_concat]
      rfl

/-- Counterexample for C4 as stated: a '.omp' function with a non-empty entry
block and a terminated final block whose final block loops; one invocation of
the transformed function executes the subtract-one instruction twice. -/
theorem c4_counterexample :
    runOnFunction (exModule ompLoopF) ompLoopF =
      .ok { globals := [externFlagGlobal], functions := [ompLoopT] } ∧
    cntOf (execFunctionCnt emptyCE isDecInstr 10 ompLoopT [] zeroMem) = some 2 ∧
    cntOf (execFunctionCnt emptyCE isIncInstr 10 ompLoopT [] zeroMem) = some 1 := by
  decide

/-- Witness for C4 at the concrete single-block '.omp' function. -/
theorem c4_witness :
    ∃ M2 F2, runOnFunction (exModule ompExF) ompExF = .ok M2 ∧ F2 ∈ M2.functions ∧
      F2.name = ompExF.name ∧
      F2.countInstr isIncInstr = 1 ∧ F2.countInstr isDecInstr = 1 ∧
      (∃ tail, F2.blocks.head? = some ⟨"entry", incSeq ++ tail⟩) ∧
      (∃ nm2 pre, F2.blocks.getLast? = some ⟨nm2, pre ++ decSeq ++ [retVoidInstr]⟩) ∧
      (([] : List BasicBlock) = [] → ∀ ce args mem,
        (execFunctionCnt ce isIncInstr 0 F2 args mem = none ∨
          ∃ v m, execFunctionCnt ce isIncInstr 0 F2 args mem = some (v, m, 1)) ∧
        (execFunctionCnt ce isDecInstr 0 F2 args mem = none ∨
          ∃ v m, execFunctionCnt ce isDecInstr 0 F2 args mem = some (v, m, 1))) :=
  c4_amended (exModule ompExF) ompExF ⟨"entry", [retVoidInstr]⟩ [] retVoidInstr
    (by decide) rfl (by decide) (by decide) (by decide) (by decide) (by decide)
    (by decide) (by decide) (by decide) (fun _ => ⟨none, rfl⟩)

/-- C5: for every parallel-outlined function (name starting ".omp") whose
final block has no terminator, the pass aborts the entire compilation with the
fatal "broken function" diagnostic rather than producing a module. -/
theorem c5_broken_omp_aborts (M : Module) (F : Function) (entry : BasicBlock)
    (rest : List BasicBlock)
    (hb : F.blocks = entry :: rest)
    (hmain : F.name ≠ "main")
    (hexcl : excludedName F.name = false)
    (homp : strStartsWith F.name ".omp" = true)
    (hne : entry.instrs ≠ [])
    (hterm : lastBlockTerminator F = none) :
    runOnFunction M F = .fatalError brokenMsg := by
  have hne2 : entry.instrs.isEmpty = false := by
    cases h2 : entry.instrs with
    | nil => exact absurd h2 hne
    | cons a l => rfl
  unfold runOnFunction
  rw [if_neg hmain]
  simp only [hexcl, Bool.false_eq_true, if_false, homp, if_true]
  unfold instrumentOmp
  rw [hb]
  simp only [hne2, Bool.false_eq_true, if_false]
  cases hr : rest.getLast? with
  | none =>
    have hrest : rest = [] := List.getLast?_eq_none_iff.mp hr
    have hlast : F.blocks.getLast? = some entry := by
      rw [hb, hrest]; rfl
    have hterm2 : entry.getTerminator = none := by
      unfold lastBlockTerminator at hterm
      rw [hlast] at hterm
      exact hterm
    simp only [ompEntry_getTerminator entry hne, hterm2]
  | some lastBB =>
    have hrest : rest ≠ [] := by
      intro h2; rw [h2] at hr; exact Option.noConfusion hr
    have hlast : F.blocks.getLast? = some lastBB := by
      rw [hb, show (entry :: rest) = [entry] ++ rest from rfl,
        List.getLast?_append_of_ne_nil _ hrest]
      exact hr
    have hterm2 : lastBB.getTerminator = none := by
      unfold lastBlockTerminator at hterm
      rw [hlast] at hterm
      exact hterm
    simp only [hterm2]

/-- Witness for C5 at a concrete broken `.omp` function. -/
theorem c5_witness :
    runOnFunction (exModule ompBrokenF) ompBrokenF = .fatalError brokenMsg :=
  c5_broken_omp_aborts _ _ ⟨"entry", [{ name := "x", op := .load "g" }]⟩ []
    rfl (by decide) (by decide) (by decide) (by decide) (by decide)

/-- C7 (amended): running the pass on any function whose name ends in an
excluded suffix ("_dtor", "__swordomp__", "__clang_call_terminate") — in
particular on any clone it created — leaves the function and the whole module
byte-for-byte identical.  The amendment drops the original claim's assertion
that a second run on a '.omp'-prefixed function does not re-duplicate the
instrumentation: `c7_counterexample` shows it does. -/
theorem c7_excluded_identity (M : Module) (F : Function)
    (h : excludedName F.name = true) : runOnFunction M F = .ok M := by
  unfold runOnFunction
  by_cases hm : F.name = "main"
  · rw [hm] at h
    exact absurd h (by decide)
  · rw [if_neg hm]
    simp only [h, if_true]

/-- Counterexample for C7 as stated: a second pass run on an already
instrumented '.omp' function inserts a second increment/decrement pair. -/
theorem c7_counterexample :
    runOnFunction (exModule ompExF) ompExF =
      .ok { globals := [externFlagGlobal], functions := [ompOnceF] } ∧
    runOnFunction { globals := [externFlagGlobal], functions := [ompOnceF] } ompOnceF =
      .ok { globals := [externFlagGlobal], functions := [ompTwiceF] } ∧
    ompOnceF.countInstr isIncInstr = 1 ∧ ompOnceF.countInstr isDecInstr = 1 ∧
    ompTwiceF.countInstr isIncInstr = 2 ∧ ompTwiceF.countInstr isDecInstr = 2 := by
  decide

/-- Witness for C7: the amended theorem applied to a concrete destructor. -/
theorem c7_witness : runOnFunction (exModule dtorExF) dtorExF = .ok (exModule dtorExF) :=
  c7_excluded_identity _ _ (by decide)

/-- C3 (code bug): on a sequential candidate whose entry block has no
debug-located instruction the pass does not raise the fatal
"No instructions with debug information!" diagnostic; the line-202 check
tests `firstEntryBBI` twice instead of `firstEntryBBDI`, so the run reaches
`firstEntryBBDI->getDebugLoc()` and dereferences a null pointer (modelled as
`PassResult.crash`, not `PassResult.fatalError`). -/
theorem c3_missing_debug_crashes :
    runOnFunction (exModule seqNoDbgF) seqNoDbgF = PassResult.crash := by
  decide

/-- C9 (code bug): of the six instructions inserted into a '.omp' function,
the four loads and stores carry "SwordRT Instrumentation" metadata but the
add-one and subtract-one instructions carry none (source line 154 re-tags
`loadInc` instead of `inc`, and nothing tags `dec`). -/
theorem c9_arith_untagged :
    runOnFunction (exModule ompExF) ompExF =
      .ok { globals := [externFlagGlobal], functions := [ompOnceF] } ∧
    incInstr.md = [] ∧ decInstr.md = [] ∧
    loadIncInstr.md =
      [("swordomp.ompstatus", swordDescription), ("swordrt.ompstatus", swordDescription)] ∧
    storeIncInstr.md = [("swordrt.ompstatus", swordDescription)] ∧
    loadDecInstr.md = [("swordrt.ompstatus", swordDescription)] ∧
    storeDecInstr.md = [("swordrt.ompstatus", swordDescription)] := by
  decide

/-- C6 (amended): starting from a module without the status flag, any
successful sequence of pass invocations leaves at most one global named
__swordomp_status__ — exactly one as soon as some invocation processes a
function that is `main` or carries no excluded suffix — and every global the
pass adds is the zero-initialized common-linkage definition (created for
`main`) or the external declaration (created for any other function).  The
amendment weakens the original 'exactly one for every module and every
sequence': a sequence that only processes excluded-suffix functions (or an
empty sequence) creates no flag at all. -/
theorem c6_flag_unique (M : Module) (ns : List String) (M2 : Module)
    (hstart : flagCount M = 0)
    (hrun : runSequence M ns = .ok M2) :
    flagCount M2 ≤ 1 ∧
    ((∃ n ∈ ns, (n = "main" ∨ excludedName n = false) ∧
        n ∈ M.functions.map (fun f => f.name)) → flagCount M2 = 1) ∧
    (∀ g ∈ M2.globals, g ∈ M.globals ∨ g = mainFlagGlobal ∨ g = externFlagGlobal) := by
  obtain ⟨h1, h2, h3, h4⟩ := runSequence_inv ns M M2 hrun
  refine ⟨h2 (by omega), fun hc => ?_, h3⟩
  have h5 := h4 hc
  have h6 := h2 (by omega)
  omega

/-- Counterexample for C6 as stated: a module holding only a destructor
contains zero flag-named globals after the pass runs over all its functions. -/
theorem c6_counterexample :
    runSequence (exModule dtorExF) ["foo_dtor"] = .ok (exModule dtorExF) ∧
    flagCount (exModule dtorExF) = 0 := by
  decide

/-- Witness for C6 at a concrete one-function module. -/
theorem c6_witness :
    flagCount { globals := [externFlagGlobal], functions := [ompOnceF] } ≤ 1 ∧
    ((∃ n ∈ [".omp_outlined."], (n = "main" ∨ excludedName n = false) ∧
        n ∈ (exModule ompExF).functions.map (fun f => f.name)) →
      flagCount { globals := [externFlagGlobal], functions := [ompOnceF] } = 1) ∧
    (∀ g ∈ ({ globals := [externFlagGlobal], functions := [ompOnceF] } : Module).globals,
      g ∈ (exModule ompExF).globals ∨ g = mainFlagGlobal ∨ g = externFlagGlobal) :=
  c6_flag_unique (exModule ompExF) [".omp_outlined."]
    { globals := [externFlagGlobal], functions := [ompOnceF] } (by decide) (by decide)

/-- C8 (amended): the clone the pass creates is field-for-field identical to
the pre-transformation original (blocks, parameters, return shape, instruction
count, and the SanitizeThread bit) except for the "__swordomp__" name suffix,
and the post-transformation original (the dispatcher) keeps its name but no
longer carries SanitizeThread.  The amendment drops the original claim's final
clause that only the name and that attribute distinguish the clone from the
original-post-transform: `c8_counterexample` shows the dispatcher's body is
restructured (three blocks against the clone's one). -/
theorem c8_clone_fidelity (M : Module) (F : Function) (entry : BasicBlock)
    (rest : List BasicBlock) (di : Instr)
    (hFm : F ∈ M.functions)
    (hb : F.blocks = entry :: rest)
    (hmain : F.name ≠ "main")
    (hexcl : excludedName F.name = false)
    (homp : strStartsWith F.name ".omp" = false)
    (hdi : entry.instrs.find? (fun i => i.dbg.isSome) = some di) :
    ∃ M2, runOnFunction M F = .ok M2 ∧
      seqClone F ∈ M2.functions ∧
      mkDispatcher F entry rest di.dbg ∈ M2.functions ∧
      (seqClone F).name = F.name ++ "__swordomp__" ∧
      (seqClone F).blocks = F.blocks ∧
      (seqClone F).params = F.params ∧
      (seqClone F).retVoid = F.retVoid ∧
      (seqClone F).sanitizeThread = F.sanitizeThread ∧
      (seqClone F).countInstr (fun _ => true) = F.countInstr (fun _ => true) ∧
      (mkDispatcher F entry rest di.dbg).sanitizeThread = false ∧
      (mkDispatcher F entry rest di.dbg).name = F.name := by
  obtain ⟨M2, hrun, hfns⟩ := runOnFunction_seq M F entry rest di hb hmain hexcl homp hdi
  refine ⟨M2, hrun, ?_, ?_, rfl, rfl, rfl, rfl, rfl, rfl, rfl, rfl⟩
  · rw [hfns]
    exact List.mem_append_right _ (List.mem_singleton.mpr rfl)
  · rw [hfns]
    apply List.mem_append_left
    have := List.mem_map_of_mem
      (fun g => if g.name = F.name then mkDispatcher F entry rest di.dbg else g) hFm
    simpa using this

/-- Counterexample for C8's final clause: after the pass, the dispatcher has
three basic blocks while the clone has one, so more than the name and the
thread-sanitize attribute distinguish them. -/
theorem c8_counterexample :
    runOnFunction (exModule seqExF) seqExF =
      .ok { globals := [externFlagGlobal],
            functions := [mkDispatcher seqExF ⟨"entry", [seqExInstr, retVoidInstr]⟩ [] (some 7),
                          seqClone seqExF] } ∧
    (mkDispatcher seqExF ⟨"entry", [seqExInstr, retVoidInstr]⟩ [] (some 7)).blocks.length = 3 ∧
    (seqClone seqExF).blocks.length = 1 ∧
    (mkDispatcher seqExF ⟨"entry", [seqExInstr, retVoidInstr]⟩ [] (some 7)).sanitizeThread
      = false ∧
    (seqClone seqExF).sanitizeThread = true := by
  decide

/-- Witness for C8 at a concrete value-returning candidate. -/
theorem c8_witness :
    ∃ M2, runOnFunction (exModule seqValF) seqValF = .ok M2 ∧
      seqClone seqValF ∈ M2.functions ∧
      mkDispatcher seqValF ⟨"entry", [seqValInstr, seqValRet]⟩ [] (some 3) ∈ M2.functions ∧
      (seqClone seqValF).name = seqValF.name ++ "__swordomp__" ∧
      (seqClone seqValF).blocks = seqValF.blocks ∧
      (seqClone seqValF).params = seqValF.params ∧
      (seqClone seqValF).retVoid = seqValF.retVoid ∧
      (seqClone seqValF).sanitizeThread = seqValF.sanitizeThread ∧
      (seqClone seqValF).countInstr (fun _ => true) = seqValF.countInstr (fun _ => true) ∧
      (mkDispatcher seqValF ⟨"entry", [seqValInstr, seqValRet]⟩ [] (some 3)).sanitizeThread
        = false ∧
      (mkDispatcher seqValF ⟨"entry", [seqValInstr, seqValRet]⟩ [] (some 3)).name
        = seqValF.name :=
  c8_clone_fidelity (exModule seqValF) seqValF ⟨"entry", [seqValInstr, seqValRet]⟩ []
    seqValInstr (by decide) rfl (by decide) (by decide) (by decide) (by decide)

/-- C10: one successful pass invocation on `F` leaves every other function of
the module unchanged; every function of the resulting module is an original
function, the rewritten `F` (same name), or the clone named
`F.name ++ "__swordomp__"`; every original global survives; and the only
global the pass may add is the status flag `__swordomp_status__`. -/
theorem c10_frame (M : Module) (F : Function) (M2 : Module)
    (h : runOnFunction M F = .ok M2) :
    (∀ G ∈ M.functions, G.name ≠ F.name → G ∈ M2.functions) ∧
    (∀ G ∈ M2.functions, G ∈ M.functions ∨ G.name = F.name ∨
      G.name = F.name ++ "__swordomp__") ∧
    (∀ g ∈ M2.globals, g ∈ M.globals ∨ g.name = ompStatusName) ∧
    (∀ g ∈ M.globals, g ∈ M2.globals) := by
  unfold runOnFunction at h
  by_cases hm : F.name = "main"
  · rw [if_pos hm] at h
    cases hg : M.getNamedGlobal ompStatusName with
    | some g =>
      rw [hg] at h
      cases h
      exact ⟨fun G hG _ => hG, fun G hG => Or.inl hG, fun g2 hg2 => Or.inl hg2,
        fun g2 hg2 => hg2⟩
    | none =>
      rw [hg] at h
      cases h
      refine ⟨fun G hG _ => hG, fun G hG => Or.inl hG, ?_, ?_⟩
      · intro g2 hg2
        rcases List.mem_append.mp hg2 with h2 | h2
        · exact Or.inl h2
        · rw [List.mem_singleton.mp h2]
          exact Or.inr rfl
      · intro g2 hg2
        exact List.mem_append_left _ hg2
  · rw [if_neg hm] at h
    cases hex : excludedName F.name with
    | true =>
      rw [hex] at h
      simp only [if_true] at h
      cases h
      exact ⟨fun G hG _ => hG, fun G hG => Or.inl hG, fun g2 hg2 => Or.inl hg2,
        fun g2 hg2 => hg2⟩
    | false =>
      rw [hex] at h
      simp only [Bool.false_eq_true, if_false] at h
      -- the instrumented module relative to the flag-ensured module M1
      have main2 : ∀ M1 : Module,
          ((if strStartsWith F.name ".omp" then instrumentOmp M1 F
            else instrumentSequential M1 F) = .ok M2) →
          M1.globals = M.globals ∨ M1.globals = M.globals ++ [externFlagGlobal] →
          M1.functions = M.functions →
          (∀ G ∈ M.functions, G.name ≠ F.name → G ∈ M2.functions) ∧
          (∀ G ∈ M2.functions, G ∈ M.functions ∨ G.name = F.name ∨
            G.name = F.name ++ "__swordomp__") ∧
          (∀ g ∈ M2.globals, g ∈ M.globals ∨ g.name = ompStatusName) ∧
          (∀ g ∈ M.globals, g ∈ M2.globals) := by
        intro M1 h2 hglob hfun
        have hglob2 : ∀ g ∈ M1.globals, g ∈ M.globals ∨ g.name = ompStatusName := by
          intro g2 hg2
          rcases hglob with h3 | h3
          · rw [h3] at hg2; exact Or.inl hg2
          · rw [h3] at hg2
            rcases List.mem_append.mp hg2 with h4 | h4
            · exact Or.inl h4
            · rw [List.mem_singleton.mp h4]
              exact Or.inr rfl
        have hglob3 : ∀ g ∈ M.globals, g ∈ M1.globals := by
          intro g2 hg2
          rcases hglob with h3 | h3
          · rw [h3]; exact hg2
          · rw [h3]; exact List.mem_append_left _ hg2
        have frameFns : ∀ (F2 : Function), F2.name = F.name →
            (∀ G ∈ M.functions, G.name ≠ F.name →
              G ∈ M1.functions.map (fun g => if g.name = F.name then F2 else g)) ∧
            (∀ G ∈ M1.functions.map (fun g => if g.name = F.name then F2 else g),
              G ∈ M.functions ∨ G.name = F.name) := by
          intro F2 hF2
          constructor
          · intro G hG hGn
            rw [hfun]
            have h4 := List.mem_map_of_mem (fun g => if g.name = F.name then F2 else g) hG
            simpa [hGn] using h4
          · intro G hG
            rw [hfun] at hG
            obtain ⟨g0, hg0, hg0e⟩ := List.mem_map.mp hG
            by_cases hn : g0.name = F.name
            · rw [if_pos hn] at hg0e
              rw [← hg0e, hF2]
              exact Or.inr rfl
            · rw [if_neg hn] at hg0e
              rw [← hg0e]
              exact Or.inl hg0
        cases hs : strStartsWith F.name ".omp" with
        | true =>
          rw [hs] at h2
          simp only [if_true] at h2
          obtain ⟨F2, hF2n, hM2⟩ := instrumentOmp_ok2 M1 F M2 h2
          subst hM2
          obtain ⟨fr1, fr2⟩ := frameFns F2 hF2n
          exact ⟨fr1, fun G hG => (fr2 G hG).imp id Or.inl, hglob2, hglob3⟩
        | false =>
          rw [hs] at h2
          simp only [Bool.false_eq_true, if_false] at h2
          obtain ⟨F2, hF2n, hM2⟩ := instrumentSequential_ok2 M1 F M2 h2
          subst hM2
          obtain ⟨fr1, fr2⟩ := frameFns F2 hF2n
          refine ⟨fun G hG hGn => List.mem_append_left _ (fr1 G hG hGn), ?_, hglob2, hglob3⟩
          intro G hG
          rcases List.mem_append.mp hG with h3 | h3
          · exact (fr2 G h3).imp id Or.inl
          · rw [List.mem_singleton.mp h3]
            exact Or.inr (Or.inr rfl)
      cases hg : M.getNamedGlobal ompStatusName with
      | some g =>
        rw [hg] at h
        exact main2 M h (Or.inl rfl) rfl
      | none =>
        rw [hg] at h
        exact main2 _ h (Or.inr rfl) rfl

/-- Witness for C10 at a concrete one-function module. -/
theorem c10_witness :
    (∀ G ∈ (exModule ompExF).functions, G.name ≠ ompExF.name →
      G ∈ ({ globals := [externFlagGlobal], functions := [ompOnceF] } : Module).functions) ∧
    (∀ G ∈ ({ globals := [externFlagGlobal], functions := [ompOnceF] } : Module).functions,
      G ∈ (exModule ompExF).functions ∨ G.name = ompExF.name ∨
        G.name = ompExF.name ++ "__swordomp__") ∧
    (∀ g ∈ ({ globals := [externFlagGlobal], functions := [ompOnceF] } : Module).globals,
      g ∈ (exModule ompExF).globals ∨ g.name = ompStatusName) ∧
    (∀ g ∈ (exModule ompExF).globals,
      g ∈ ({ globals := [externFlagGlobal], functions := [ompOnceF] } : Module).globals) :=
  c10_frame (exModule ompExF) ompExF
    { globals := [externFlagGlobal], functions := [ompOnceF] } (by decide)

/-- C1: for every sequential candidate (well-formed per `seqOKParts`, with a
debug-located entry instruction) and every input — argument list, memory with
the status flag equal to 1, and call oracle — the pass succeeds, the module
holds the dispatcher, and invoking the dispatcher calls the clone named
`F.name ++ "__swordomp__"` with the original arguments forwarded positionally
and in order (the oracle receives exactly `args`), after which the dispatcher
returns exactly the clone call's result — the clone's value and memory for a
value-returning function, and no value (with the clone's memory) in the void
case. -/
theorem c1_dispatch (M : Module) (F : Function) (entry : BasicBlock)
    (rest : List BasicBlock) (di : Instr) (ce : CallEnv) (fuel : Nat)
    (args : List Int) (mem : Mem) (r : Option Int) (mem2 : Mem)
    (hFm : F ∈ M.functions)
    (hb : F.blocks = entry :: rest)
    (hok : seqOKParts F entry rest)
    (hdi : entry.instrs.find? (fun i => i.dbg.isSome) = some di)
    (hlen : args.length = F.params.length)
    (hmem : mem ompStatusName = 1)
    (hcall : ce (F.name ++ cloneSuffix) args mem = some (r, mem2))
    (hr : F.retVoid = false → r.isSome = true) :
    ∃ M2, runOnFunction M F = .ok M2 ∧
      mkDispatcher F entry rest di.dbg ∈ M2.functions ∧
      execFunction ce (fuel + 1) (mkDispatcher F entry rest di.dbg) args mem =
        some ((if F.retVoid then none else r), mem2) := by
  obtain ⟨hmain, hexcl, homp, hne, hu1, hu2, htw, henr, hesr, hthr, hnes, hnet, hnd, hpl, hpc⟩
    := hok
  obtain ⟨M2, hrun, hfns⟩ := runOnFunction_seq M F entry rest di hb hmain hexcl homp hdi
  refine ⟨M2, hrun, ?_, ?_⟩
  · rw [hfns]
    apply List.mem_append_left
    have h4 := List.mem_map_of_mem
      (fun g => if g.name = F.name then mkDispatcher F entry rest di.dbg else g) hFm
    simpa using h4
  · have hblocks : (mkDispatcher F entry rest di.dbg).blocks =
        dispatchEntry entry :: ({ name := entrySplitName, instrs := entry.instrs } ::
          (rest ++ [dispatchThen F di.dbg])) := by
      simp [mkDispatcher]
    have hentryRun : execInstrs ce (dispatchEntry entry).instrs (bindParams F.params args) mem =
        some (.inl (thenName,
          updateMap (updateMap (bindParams F.params args) loadOmpName 1) condName 1, mem)) := by
      simp only [dispatchEntry, execInstrs, execInstr, evalOperand, updateMap_same, hmem,
        if_true]
      rw [if_pos (show (1 : Int) ≠ 0 by norm_num)]
    have hfb : findBlock (dispatchEntry entry ::
        ({ name := entrySplitName, instrs := entry.instrs } ::
          (rest ++ [dispatchThen F di.dbg]))) thenName = some (dispatchThen F di.dbg) := by
      rw [findBlock_cons_ne (dispatchEntry entry) _ _ hnet,
        findBlock_cons_ne ({ name := entrySplitName, instrs := entry.instrs } : BasicBlock)
          _ _ ((by decide : entrySplitName ≠ thenName)),
        findBlock_append_not_mem rest _ _ hthr]
      exact findBlock_cons_eq _ _ _ (dispatchThen_name F di.dbg)
    have hassemble : ∀ res, execInstrs ce (dispatchThen F di.dbg).instrs
        (updateMap (updateMap (bindParams F.params args) loadOmpName 1) condName 1) mem =
          some (.inr res) →
        execFunction ce (fuel + 1) (mkDispatcher F entry rest di.dbg) args mem = some res := by
      intro res hres
      unfold execFunction
      rw [hblocks]
      dsimp only
      rw [mkDispatcher_params, hentryRun]
      dsimp only
      unfold execFrom
      rw [hfb]
      dsimp only
      rw [hres]
    have hargs : (F.params.map Operand.var).map (evalOperand
        (updateMap (updateMap (bindParams F.params args) loadOmpName 1) condName 1)) = args := by
      rw [List.map_map]
      exact env2_params_eq F.params args loadOmpName condName 1 1 hnd hlen hpl hpc
    cases hv : F.retVoid with
    | true =>
      have hti : (dispatchThen F di.dbg).instrs =
          [{ name := "", op := .call (F.name ++ cloneSuffix) (F.params.map Operand.var),
             md := [], dbg := di.dbg },
           { name := "", op := .ret none, md := [], dbg := none }] := by
        simp [dispatchThen, hv]
      have hthenRun : execInstrs ce (dispatchThen F di.dbg).instrs
          (updateMap (updateMap (bindParams F.params args) loadOmpName 1) condName 1) mem =
            some (.inr (none, mem2)) := by
        rw [hti]
        simp only [execInstrs, execInstr]
        rw [hargs, hcall]
        simp
      simpa using hassemble (none, mem2) hthenRun
    | false =>
      obtain ⟨v, hv2⟩ := Option.isSome_iff_exists.mp (hr hv)
      subst hv2
      have hti : (dispatchThen F di.dbg).instrs =
          [{ name := F.name ++ cloneSuffix,
             op := .call (F.name ++ cloneSuffix) (F.params.map Operand.var),
             md := [], dbg := di.dbg },
           { name := "", op := .ret (some (.var (F.name ++ cloneSuffix))), md := [],
             dbg := none }] := by
        simp [dispatchThen, hv]
      have hthenRun : execInstrs ce (dispatchThen F di.dbg).instrs
          (updateMap (updateMap (bindParams F.params args) loadOmpName 1) condName 1) mem =
            some (.inr (some v, mem2)) := by
        rw [hti]
        simp only [execInstrs, execInstr]
        rw [hargs, hcall]
        simp only [if_neg (cloneName_ne_empty F.name)]
        simp only [execInstrs, execInstr, evalOperand, updateMap_same]
      simpa using hassemble (some v, mem2) hthenRun

/-- Witness for C1 at a concrete value-returning candidate, flag = 1. -/
theorem c1_witness :
    ∃ M2, runOnFunction (exModule seqValF) seqValF = .ok M2 ∧
      mkDispatcher seqValF ⟨"entry", [seqValInstr, seqValRet]⟩ [] (some 3) ∈ M2.functions ∧
      execFunction (constCE (some 42)) (0 + 1)
        (mkDispatcher seqValF ⟨"entry", [seqValInstr, seqValRet]⟩ [] (some 3)) [5] oneFlagMem =
        some ((if seqValF.retVoid then none else some 42), oneFlagMem) :=
  c1_dispatch (exModule seqValF) seqValF ⟨"entry", [seqValInstr, seqValRet]⟩ [] seqValInstr
    (constCE (some 42)) 0 [5] oneFlagMem (some 42) oneFlagMem
    (by decide) rfl (by decide) (by decide) (by decide) rfl rfl (fun _ => rfl)

/-- C2: for every sequential candidate (well-formed per `seqOKParts`, with a
debug-located entry instruction) and every input — arguments, call oracle,
and memory whose status flag differs from 1 — the pass succeeds and invoking
the transformed dispatcher produces exactly the same result (returned value
and final memory, for every fuel bound) as invoking the pre-instrumentation
function: the flag load, the compare against 1, and the conditional branch are
the only code added before the original body, and on the not-equal path the
original body runs unmodified. -/
theorem c2_flag_off (M : Module) (F : Function) (entry : BasicBlock)
    (rest : List BasicBlock) (di : Instr) (ce : CallEnv) (fuel : Nat)
    (args : List Int) (mem : Mem)
    (hFm : F ∈ M.functions)
    (hb : F.blocks = entry :: rest)
    (hok : seqOKParts F entry rest)
    (hdi : entry.instrs.find? (fun i => i.dbg.isSome) = some di)
    (hmem : mem ompStatusName ≠ 1) :
    ∃ M2, runOnFunction M F = .ok M2 ∧
      mkDispatcher F entry rest di.dbg ∈ M2.functions ∧
      execFunction ce (fuel + 1) (mkDispatcher F entry rest di.dbg) args mem =
        execFunction ce fuel F args mem := by
  obtain ⟨hmain, hexcl, homp, hne, hu1, hu2, htw, henr, hesr, hthr, hnes, hnet, hnd, hpl, hpc⟩
    := hok
  obtain ⟨M2, hrun, hfns⟩ := runOnFunction_seq M F entry rest di hb hmain hexcl homp hdi
  refine ⟨M2, hrun, ?_, ?_⟩
  · rw [hfns]
    apply List.mem_append_left
    have h4 := List.mem_map_of_mem
      (fun g => if g.name = F.name then mkDispatcher F entry rest di.dbg else g) hFm
    simpa using h4
  · have hs' : ∀ b ∈ entry :: rest, ∀ i ∈ b.instrs,
        ∀ x ∈ [loadOmpName, condName], i.op.usesVar x = false := by
      intro b hbm i him x hxm
      have hbm2 : b ∈ F.blocks := by rw [hb]; exact hbm
      rcases List.mem_cons.mp hxm with hx | hx
      · subst hx
        have h5 := List.all_eq_true.mp (List.all_eq_true.mp hu1 b hbm2) i him
        simpa using h5
      · rcases List.mem_cons.mp hx with hx2 | hx2
        · subst hx2
          have h5 := List.all_eq_true.mp (List.all_eq_true.mp hu2 b hbm2) i him
          simpa using h5
        · exact absurd hx2 (List.not_mem_nil x)
    have ht' : ∀ b ∈ entry :: rest, ∀ i ∈ b.instrs,
        i.op.targets.all (fun u => (rest.map (fun b2 => b2.name)).contains u) = true := by
      intro b hbm i him
      have hbm2 : b ∈ F.blocks := by rw [hb]; exact hbm
      exact List.all_eq_true.mp (List.all_eq_true.mp htw b hbm2) i him
    have hblocks : (mkDispatcher F entry rest di.dbg).blocks =
        dispatchEntry entry :: ({ name := entrySplitName, instrs := entry.instrs } ::
          (rest ++ [dispatchThen F di.dbg])) := by
      simp [mkDispatcher]
    have hentryRun : execInstrs ce (dispatchEntry entry).instrs (bindParams F.params args) mem =
        some (.inl (entrySplitName,
          updateMap (updateMap (bindParams F.params args) loadOmpName (mem ompStatusName))
            condName 0, mem)) := by
      simp only [dispatchEntry, execInstrs, execInstr, evalOperand, updateMap_same]
      rw [if_neg hmem]
      rw [if_neg (show ¬((0 : Int) ≠ 0) by norm_num)]
    have henv2 : EnvAgree [loadOmpName, condName] (bindParams F.params args)
        (updateMap (updateMap (bindParams F.params args) loadOmpName (mem ompStatusName))
          condName 0) := by
      intro y hy
      have hy1 : y ≠ loadOmpName := fun h2 => hy (h2 ▸ List.mem_cons_self _ _)
      have hy2 : y ≠ condName := fun h2 =>
        hy (h2 ▸ List.mem_cons_of_mem _ (List.mem_cons_self _ _))
      rw [updateMap_ne _ _ _ _ hy2, updateMap_ne _ _ _ _ hy1]
    have hL : execFunction ce (fuel + 1) (mkDispatcher F entry rest di.dbg) args mem =
        execFrom ce (dispatchEntry entry :: ({ name := entrySplitName, instrs := entry.instrs } ::
          (rest ++ [dispatchThen F di.dbg]))) (fuel + 1) entrySplitName
          (updateMap (updateMap (bindParams F.params args) loadOmpName (mem ompStatusName))
            condName 0) mem := by
      unfold execFunction
      rw [hblocks]
      dsimp only
      rw [mkDispatcher_params, hentryRun]
    have hfbSplit : findBlock (dispatchEntry entry ::
        ({ name := entrySplitName, instrs := entry.instrs } ::
          (rest ++ [dispatchThen F di.dbg]))) entrySplitName =
        some { name := entrySplitName, instrs := entry.instrs } := by
      rw [findBlock_cons_ne (dispatchEntry entry) _ _ hnes]
      exact findBlock_cons_eq _ _ _ rfl
    rw [hL]
    unfold execFrom
    rw [hfbSplit]
    dsimp only
    have hR : execFunction ce fuel F args mem =
        (match execInstrs ce entry.instrs (bindParams F.params args) mem with
          | none => none
          | some (.inl (t, e, m)) => execFrom ce (entry :: rest) fuel t e m
          | some (.inr r) => some r) := by
      unfold execFunction
      rw [hb]
    rw [hR]
    have hrel := execInstrs_agree ce [loadOmpName, condName] entry.instrs
      (bindParams F.params args)
      (updateMap (updateMap (bindParams F.params args) loadOmpName (mem ompStatusName))
        condName 0) mem
      (fun i hi => hs' entry (List.mem_cons_self _ _) i hi) henv2
    cases h1 : execInstrs ce entry.instrs (bindParams F.params args) mem with
    | none =>
      cases h2 : execInstrs ce entry.instrs
          (updateMap (updateMap (bindParams F.params args) loadOmpName (mem ompStatusName))
            condName 0) mem with
      | none => rfl
      | some o2 =>
        rw [h1, h2] at hrel
        cases o2 <;> exact absurd hrel (by simp [StepRel])
    | some o1 =>
      cases h2 : execInstrs ce entry.instrs
          (updateMap (updateMap (bindParams F.params args) loadOmpName (mem ompStatusName))
            condName 0) mem with
      | none =>
        rw [h1, h2] at hrel
        cases o1 <;> exact absurd hrel (by simp [StepRel])
      | some o2 =>
        rw [h1, h2] at hrel
        cases o1 with
        | inl p1 =>
          obtain ⟨t2, e2, m2⟩ := p1
          cases o2 with
          | inl p2 =>
            obtain ⟨t3, e3, m3⟩ := p2
            obtain ⟨htv, he, hm⟩ := hrel
            subst htv
            subst hm
            have htarget : (rest.map (fun b2 => b2.name)).contains t2 = true :=
              execInstrs_jump_target ce _ entry.instrs (bindParams F.params args) mem t2 e2 m2
                (fun i hi => ht' entry (List.mem_cons_self _ _) i hi) h1
            exact (execFrom_sim ce [loadOmpName, condName] entry rest (dispatchEntry entry)
              { name := entrySplitName, instrs := entry.instrs } (dispatchThen F di.dbg)
              rfl rfl hs' ht' henr hesr fuel t2 e2 e3 m2 htarget he).symm
          | inr r2 => exact absurd hrel (by simp [StepRel])
        | inr r1 =>
          cases o2 with
          | inl p2 => exact absurd hrel (by simp [StepRel])
          | inr r2 =>
            rw [hrel]



/-- Witness for C2 at a concrete void candidate with the flag at 0. -/
theorem c2_witness :
    ∃ M2, runOnFunction (exModule seqExF) seqExF = .ok M2 ∧
      mkDispatcher seqExF ⟨"entry", [seqExInstr, retVoidInstr]⟩ [] (some 7) ∈ M2.functions ∧
      execFunction emptyCE (1 + 1)
        (mkDispatcher seqExF ⟨"entry", [seqExInstr, retVoidInstr]⟩ [] (some 7)) [5, 6] zeroMem =
        execFunction emptyCE 1 seqExF [5, 6] zeroMem :=
  c2_flag_off (exModule seqExF) seqExF ⟨"entry", [seqExInstr, retVoidInstr]⟩ [] seqExInstr
    emptyCE 1 [5, 6] zeroMem (by decide) rfl (by decide) (by decide) (by decide)

end Archer
